import Mathlib

/-!
# Implicit timers of mcrew (cmd/mcrew/implicit-timers.go)

A shallow embedding of `considerWalked` and `InterpretTime`.

* Go values of type `interface{}` are the inductive `Value`.
* The timer store, the wall clock and the error sink are the three effects of
  `considerWalked`.  The store is an interface with an explicit state, the clock is the
  stream of the readings that successive calls of `time.Now` return, and every store call
  and every call of `s.err` is recorded, in order, as an `Event`.
* The functions of the Go standard library and of package `core` that the file calls are
  the fields of `Lib`; `goLib` is the instance used for concrete evaluations.
-/

set_option linter.dupNamespace false

namespace Mcrew

/-! ## Go values -/

mutual
/-- A Go value held in an `interface{}`.  `float64` carries the IEEE-754 bit pattern;
`other` stands for a value of any dynamic type not listed (its type and its printed form). -/
inductive Value where
  | nil
  | bool (b : Bool)
  | int (n : Int)
  | int64 (n : Int)
  | float64 (bits : Nat)
  | string (s : String)
  | map (m : Fields)
  | other (typ : String) (repr : String)
/-- A Go `map[string]interface{}`, as an association list (the first entry of a key counts). -/
inductive Fields where
  | nil
  | cons (k : String) (v : Value) (rest : Fields)
end

deriving instance DecidableEq for Value, Fields

/-- The two-valued map index `v, have := m[k]`, with `none` for `have == false`. -/
def Fields.lookup : Fields → String → Option Value
  | .nil, _ => none
  | .cons k v rest, key => if k = key then some v else rest.lookup key

/-- The map index `m[k]`: the zero value `nil` when the key is missing. -/
def Fields.get (m : Fields) (key : String) : Value :=
  match m.lookup key with
  | some v => v
  | none => .nil

/-! ## Time -/

/-- An instant (`time.Time` without monotonic reading): nanoseconds since the Unix epoch. -/
structure Time where
  unixNano : Int
  deriving DecidableEq

/-- The constant `time.Second`, in nanoseconds. -/
def Second : Int := 1000000000

/-- Smallest `time.Duration` (an `int64`). -/
def minDuration : Int := -(2 ^ 63)

/-- Largest `time.Duration` (an `int64`). -/
def maxDuration : Int := 2 ^ 63 - 1

/-- The value of a 64-bit signed result of `+` or `*`: wrapped into `[-2^63, 2^63)`. -/
def wrapInt64 (x : Int) : Int := (x + 2 ^ 63) % 2 ^ 64 - 2 ^ 63

/-- The method `t.Add(d)`. -/
def Time.Add (t : Time) (d : Int) : Time := ⟨t.unixNano + d⟩

/-- The method `t.Sub(u)`: the difference as a `Duration`, saturated at the ends of the
`int64` range. -/
def Time.Sub (t u : Time) : Int :=
  let d := t.unixNano - u.unixNano
  if d < minDuration then minDuration
  else if maxDuration < d then maxDuration
  else d

/-- The variable `ZeroTime`, the zero `time.Time`: January 1 of year 1, 00:00:00 UTC. -/
def ZeroTime : Time := ⟨-62135596800 * Second⟩

/-- The variable `ClockTimeFormat`. -/
def ClockTimeFormat : String := "2006-01-02 15:04:05Z"

/-- The wall clock: reading number `i` is what the call number `i` of `time.Now` returns. -/
abbrev Clock := Nat → Time

/-- The reading that the next call of `time.Now` returns. -/
def Clock.now (c : Clock) : Time := c 0

/-- The clock after one call of `time.Now`. -/
def Clock.next (c : Clock) : Clock := fun i => c (i + 1)

/-- The truncation toward zero of the `float64` with the given bits; `none` for an
infinity or a NaN. -/
def float64Trunc (bits : Nat) : Option Int :=
  let sign : Nat := bits / 2 ^ 63 % 2
  let e : Nat := bits / 2 ^ 52 % 2 ^ 11
  let frac : Nat := bits % 2 ^ 52
  if e = 2047 then none
  else
    let mag : Nat :=
      if e = 0 then 0
      else if 1075 ≤ e then (2 ^ 52 + frac) * 2 ^ (e - 1075)
      else (2 ^ 52 + frac) / 2 ^ (1075 - e)
    some (if sign = 1 then -(mag : Int) else (mag : Int))

/-! ## Errors and library functions -/

/-- The errors of `time.ParseDuration`: each carries the whole input. -/
inductive DurationError where
  | invalid (orig : String)
  | missingUnit (orig : String)
  | unknownUnit (u : String) (orig : String)
  deriving DecidableEq

/-- The error values that reach `considerWalked`. -/
inductive GoError where
  /-- The error of `fmt.Errorf` in `InterpretTime`; its message prints the value and its
  type. -/
  | unsupportedAfter (v : Value)
  /-- An error returned by `time.ParseDuration`. -/
  | duration (e : DurationError)
  /-- An error returned by the timer store. -/
  | store (msg : String)
  deriving DecidableEq

/-- Functions that `implicit-timers.go` calls and does not define. -/
structure Lib where
  /-- The function `core.IsVariable`. -/
  IsVariable : String → Bool
  /-- The function `strconv.Atoi`; `none` when it returns an error. -/
  Atoi : String → Option Int
  /-- The function `time.Parse`, layout first; `none` when it returns an error (the
  `time.Time` it returns then is the zero one). -/
  Parse : String → String → Option Time
  /-- The function `time.ParseDuration`: nanoseconds, or its error. -/
  ParseDuration : String → Except DurationError Int
  /-- The result of converting to `int64` a `float64` (given by its bits) whose truncation
  is not an `int64`; Go leaves this result to the platform. -/
  float64Overflow : Nat → Int

/-- The conversion `time.Duration(vv)` of a `float64`. -/
def Lib.durationOfFloat64 (lib : Lib) (bits : Nat) : Int :=
  match float64Trunc bits with
  | some k => if minDuration ≤ k ∧ k ≤ maxDuration then k else wrapInt64 (lib.float64Overflow bits)
  | none => wrapInt64 (lib.float64Overflow bits)

/-! ## InterpretTime -/

/-- What a call of `InterpretTime` leaves: its two results and the clock. -/
structure Interpreted where
  t : Time
  err : Option GoError
  clock : Clock

/-- The instant `time.Now().UTC().Add(time.Duration(n) * time.Second)`. -/
def secondsFromNow (clk : Clock) (n : Int) : Interpreted :=
  ⟨clk.now.Add (wrapInt64 (n * Second)), none, clk.next⟩

/-- The function `InterpretTime`. -/
def InterpretTime (lib : Lib) (clk : Clock) (v : Value) : Interpreted :=
  match v with
  | .int vv => secondsFromNow clk vv
  | .int64 vv => secondsFromNow clk vv
  | .float64 vv => secondsFromNow clk (lib.durationOfFloat64 vv)
  | .string s =>
    match lib.Atoi s with
    | some secs => secondsFromNow clk secs
    | none =>
      match lib.Parse ClockTimeFormat s with
      | some t => ⟨t, none, clk⟩
      | none =>
        match lib.ParseDuration s with
        | .ok d => ⟨clk.now.Add d, none, clk.next⟩
        | .error e => ⟨ZeroTime, some (.duration e), clk⟩
  | _ => ⟨ZeroTime, some (.unsupportedAfter v), clk⟩

/-! ## The data of package core that considerWalked reads -/

/-- Modelled from the spec: the struct `core.State` is not in the file.  The state that a
stride enters or leaves: the name of its node and the binding environment `Bs`, a mapping
from pattern-variable name to bound value. -/
structure State where
  NodeName : String
  Bs : Fields
  deriving DecidableEq

/-- Modelled from the spec: the struct `core.Stride` is not in the file.  One transition of
a step: the state vacated, absent at the first entry, and the state entered, absent when
the machine halted.  Both are pointers in the file, `none` is the nil pointer. -/
structure Stride where
  From : Option State
  To : Option State
  deriving DecidableEq

/-- Modelled from the spec: the struct `core.Walked` is not in the file.  The result of
a step: the ordered sequence of its strides. -/
structure Walked where
  Strides : List Stride

/-- Modelled from the spec: the struct `core.Branch` is not in the file.  A branch has an
optional pattern, an `interface{}` that is nil when there is none. -/
structure Branch where
  Pattern : Value
  deriving DecidableEq

/-- Modelled from the spec: the struct `core.Branches` is not in the file.  The kind of the
branches (`Typ` is its field `Type`) and the ordered sequence of the branches. -/
structure Branches where
  Typ : String
  Branches : List Branch
  deriving DecidableEq

/-- Modelled from the spec: the struct `core.Node` is not in the file.  A state definition
with an optional branch specification, a pointer in the file, `none` is the nil pointer. -/
structure Node where
  Branches : Option Branches
  deriving DecidableEq

/-- Modelled from the spec: the struct `core.Spec` is not in the file.  The machine
specification: its nodes by name (the first entry of a name counts). -/
structure Spec where
  Nodes : List (String × Node)

/-! ## The service -/

/-- Modelled from the spec: the type of `s.timers` is not in the file.  The timer store
with its two operations, `add(key, payload, delay)` and `remove(key)`, each of which
returns an error or nil; here each takes the state `σ` of the store and returns the new
state and the error (`none` for nil). -/
structure Timers (σ : Type) where
  Add : σ → String → Fields → Int → σ × Option GoError
  Rem : σ → String → σ × Option GoError

/-- Modelled from the spec: the struct `Service` is not in the file.  The fields that
`considerWalked` uses: the switch that turns the implicit timers on, and the timer store.
The error sink `s.err` is the `err` event. -/
structure Service (σ : Type) where
  ImplicitTimers : Bool
  timers : Timers σ

/-- What `considerWalked` does to its surroundings, in order. -/
inductive Event where
  /-- A call `s.timers.Rem(ctx, key)`. -/
  | rem (key : String)
  /-- A call `s.timers.Add(ctx, key, payload, d)`. -/
  | add (key : String) (payload : Fields) (d : Int)
  /-- A call `s.err(e)`. -/
  | err (e : GoError)
  deriving DecidableEq

/-- The mutable surroundings: the state of the timer store and the clock. -/
structure Sys (σ : Type) where
  store : σ
  clock : Clock

/-- Lines 88 to 92: a string that is a variable is replaced by what `stride.To.Bs` holds
for it. -/
def resolve (lib : Lib) (Bs : Fields) (x : Value) : Value :=
  match x with
  | .string s => if lib.IsVariable s then Bs.get s else x
  | _ => x

/-- The body of the loop over the branches (lines 74 to 108). -/
def considerBranch {σ : Type} (s : Service σ) (lib : Lib) (mid : String) (dest : State)
    (b : Branch) (w : Sys σ) : List Event × Sys σ :=
  match b.Pattern with
  | .map m =>
    match m.lookup "after" with
    | none => ([], w)
    | some x0 =>
      let x := resolve lib dest.Bs x0
      let r := InterpretTime lib w.clock x
      match r.err with
      | some e => ([.err e], ⟨w.store, r.clock⟩)
      | none =>
        let key := mid ++ "/" ++ dest.NodeName
        let payload := Fields.cons "after" x .nil
        let d := r.t.Sub r.clock.now
        let a := s.timers.Add w.store key payload d
        match a.2 with
        | some e => ([.add key payload d, .err e], ⟨a.1, r.clock.next⟩)
        | none => ([.add key payload d], ⟨a.1, r.clock.next⟩)
  | _ => ([], w)

/-- The loop over the branches (lines 73 to 109). -/
def considerBranches {σ : Type} (s : Service σ) (lib : Lib) (mid : String) (dest : State) :
    List Branch → Sys σ → List Event × Sys σ
  | [], w => ([], w)
  | b :: bs, w =>
    let r1 := considerBranch s lib mid dest b w
    let r2 := considerBranches s lib mid dest bs r1.2
    (r1.1 ++ r2.1, r2.2)

/-- Lines 48 to 52: the removal of the timer of the node that is left. -/
def leave {σ : Type} (s : Service σ) (mid : String) (stride : Stride) (w : Sys σ) :
    List Event × Sys σ :=
  match stride.From, stride.To with
  | some f, some _ =>
    ([.rem (mid ++ "/" ++ f.NodeName)], ⟨(s.timers.Rem w.store (mid ++ "/" ++ f.NodeName)).1, w.clock⟩)
  | _, _ => ([], w)

/-- Lines 53 to 110: the timers of the node that is entered. -/
def enter {σ : Type} (s : Service σ) (lib : Lib) (mid : String) (spec : Spec)
    (stride : Stride) (w : Sys σ) : List Event × Sys σ :=
  match stride.To with
  | none => ([], w)
  | some dest =>
    match spec.Nodes.lookup dest.NodeName with
    | none => ([], w)
    | some node =>
      match node.Branches with
      | none => ([], w)
      | some bs =>
        if bs.Typ ≠ "message" then ([], w)
        else considerBranches s lib mid dest bs.Branches w

/-- The body of the loop over the strides (lines 48 to 110). -/
def considerStride {σ : Type} (s : Service σ) (lib : Lib) (mid : String) (spec : Spec)
    (stride : Stride) (w : Sys σ) : List Event × Sys σ :=
  let r1 := leave s mid stride w
  let r2 := enter s lib mid spec stride r1.2
  (r1.1 ++ r2.1, r2.2)

/-- The loop over the strides (lines 47 to 111). -/
def considerStrides {σ : Type} (s : Service σ) (lib : Lib) (mid : String) (spec : Spec) :
    List Stride → Sys σ → List Event × Sys σ
  | [], w => ([], w)
  | stride :: rest, w =>
    let r1 := considerStride s lib mid spec stride w
    let r2 := considerStrides s lib mid spec rest r1.2
    (r1.1 ++ r2.1, r2.2)

/-- The method `considerWalked`: the events it causes, in order, and the surroundings it
leaves. -/
def considerWalked {σ : Type} (s : Service σ) (lib : Lib) (mid : String) (spec : Spec)
    (walked : Walked) (w : Sys σ) : List Event × Sys σ :=
  if !s.ImplicitTimers then ([], w)
  else considerStrides s lib mid spec walked.Strides w

/-! ## Vocabulary of the statements -/

/-- The value of the field `after` of a branch whose pattern is a map with that field
(what lines 74 to 86 let through). -/
def Branch.after (b : Branch) : Option Value :=
  match b.Pattern with
  | .map m => m.lookup "after"
  | _ => none

/-- The values of dynamic type `int`, `int64` or `float64`. -/
def Value.isNumber : Value → Bool
  | .int _ => true
  | .int64 _ => true
  | .float64 _ => true
  | _ => false

/-- The conversion `time.Duration(vv)` of a number. -/
def Lib.durationOf (lib : Lib) : Value → Int
  | .int n => n
  | .int64 n => n
  | .float64 bits => lib.durationOfFloat64 bits
  | _ => 0

/-- The store calls among the events. -/
def Event.isCall : Event → Bool
  | .err _ => false
  | _ => true

/-- The keys of the `Rem` calls among the events, in order. -/
def rems : List Event → List String
  | [] => []
  | .rem key :: es => key :: rems es
  | _ :: es => rems es

/-- The keys and payloads of the `Add` calls among the events, in order. -/
def adds : List Event → List (String × Fields)
  | [] => []
  | .add key payload _ :: es => (key, payload) :: adds es
  | _ :: es => adds es

/-- The errors given to `s.err` among the events, in order. -/
def errs : List Event → List GoError
  | [] => []
  | .err e :: es => e :: errs es
  | _ :: es => errs es

/-- The value that the field `after` of a pattern stands for in a stride with the bindings
`Bs`: a string that `core.IsVariable` accepts stands for the value that the bindings hold
for it, and for nil when they hold none; every other value stands for itself. -/
def afterValue (lib : Lib) (Bs : Fields) : Value → Value
  | .string v =>
    match lib.IsVariable v, Bs.lookup v with
    | true, some y => y
    | true, none => .nil
    | false, _ => .string v
  | x => x

/-- Whether `InterpretTime` returns a nil error for the value (the clock has no part in
this, see `InterpretTime_err_clock`). -/
def interpretable (lib : Lib) (x : Value) : Bool :=
  (InterpretTime lib (fun _ => ZeroTime) x).err.isNone

/-- The values for which the loop over the given branches arms a timer, in order: the
values that the fields `after` stand for and that `InterpretTime` accepts. -/
def armed (lib : Lib) (Bs : Fields) : List Branch → List Value
  | [] => []
  | b :: bs =>
    match b.after with
    | some x0 =>
      if interpretable lib (afterValue lib Bs x0) then afterValue lib Bs x0 :: armed lib Bs bs
      else armed lib Bs bs
    | none => armed lib Bs bs

/-- The number that the `float64` with the given bits is; `none` for an infinity or
a NaN. -/
def float64Value (bits : Nat) : Option ℚ :=
  let sign : Nat := bits / 2 ^ 63 % 2
  let e : Nat := bits / 2 ^ 52 % 2 ^ 11
  let frac : Nat := bits % 2 ^ 52
  if e = 2047 then none
  else
    let mag : ℚ :=
      if e = 0 then (frac : ℚ) * 2 ^ (-1074 : Int)
      else ((2 ^ 52 + frac : Nat) : ℚ) * 2 ^ ((e : Int) - 1075)
    some (if sign = 1 then -mag else mag)

/-- The key of the timer of a node of an instance: the expression `mid + "/" + name` of
lines 51 and 101. -/
def timerKey (mid name : String) : String := mid ++ "/" ++ name

/-- The `Add` calls among the events. -/
def Event.isAdd : Event → Bool
  | .add _ _ _ => true
  | _ => false

/-- The `Add` calls that the loop over the given branches makes from the given clock, in
order: one for each branch with a field `after` that stands for a value `x` that
`InterpretTime` accepts, with the key of the entered node, the payload that holds `x`, and the delay
`t.Sub(time.Now())` for the time `t` that `InterpretTime(x)` gave. -/
def armedCalls (lib : Lib) (mid : String) (dest : State) : List Branch → Clock → List Event
  | [], _ => []
  | b :: bs, clk =>
    match b.after with
    | none => armedCalls lib mid dest bs clk
    | some x0 =>
      match (InterpretTime lib clk (afterValue lib dest.Bs x0)).err with
      | some _ =>
        armedCalls lib mid dest bs (InterpretTime lib clk (afterValue lib dest.Bs x0)).clock
      | none =>
        .add (mid ++ "/" ++ dest.NodeName) (.cons "after" (afterValue lib dest.Bs x0) .nil)
            ((InterpretTime lib clk (afterValue lib dest.Bs x0)).t.Sub
              (InterpretTime lib clk (afterValue lib dest.Bs x0)).clock.now) ::
          armedCalls lib mid dest bs
            (InterpretTime lib clk (afterValue lib dest.Bs x0)).clock.next

/-- The whole number that is left of a rational when its fraction is dropped (truncation
toward zero). -/
def truncToZero (q : ℚ) : Int := if 0 ≤ q then ⌊q⌋ else ⌈q⌉

/-- The name of the node of a state that may be absent. -/
def nameOf (st : Option State) : Option String := st.map (fun x => x.NodeName)

/-- Whether the strides follow one another from the node `cur`: the `From` of each stride
names the node that the stride before entered (`cur` for the first one), and only the last
stride may lack `To`. -/
def linked : Option String → List Stride → Bool
  | _, [] => true
  | cur, s :: rest =>
    decide (nameOf s.From = cur) && (rest.isEmpty || s.To.isSome) && linked (nameOf s.To) rest

/-- Whether the strides of a step form a chain: the `From` of each stride after the first
names the node that the stride before entered, and only the last stride may lack `To`. -/
def isChain : List Stride → Bool
  | [] => true
  | s :: rest => linked (nameOf s.From) (s :: rest)

/-- The node that was entered last when the strides are gone through from the node `cur`:
`cur` itself when no stride enters a node. -/
def lastEntered : Option String → List Stride → Option String
  | cur, [] => cur
  | cur, s :: rest =>
    lastEntered (match s.To with | some d => some d.NodeName | none => cur) rest

/-! ## The library functions of Go and of package core

Models of the functions that the file calls: `strconv.Atoi`, `time.Parse` for the layout
`ClockTimeFormat`, `time.ParseDuration` and `core.IsVariable`.  Strings are lists of
characters; every character that these functions tell apart is an ASCII one. -/

/-- The value of a decimal digit. -/
def digit (c : Char) : Option Nat :=
  if '0' ≤ c ∧ c ≤ '9' then some (c.toNat - '0'.toNat) else none

/-- The number written by a string of decimal digits, continuing from `acc`; `none` when
a character is not a digit. -/
def digits : List Char → Nat → Option Nat
  | [], acc => some acc
  | c :: cs, acc =>
    match digit c with
    | some d => digits cs (acc * 10 + d)
    | none => none

/-- The function `strconv.Atoi` on a 64-bit platform: an optional sign, then one or more
decimal digits, of a value that fits an `int` (the range of `int64`, that of a
`time.Duration`). -/
def goAtoi (s : String) : Option Int :=
  let body : Bool × List Char :=
    match s.toList with
    | '-' :: cs => (true, cs)
    | '+' :: cs => (false, cs)
    | cs => (false, cs)
  match body.2 with
  | [] => none
  | cs =>
    match digits cs 0 with
    | none => none
    | some n =>
      let v : Int := if body.1 then -(n : Int) else (n : Int)
      if minDuration ≤ v ∧ v ≤ maxDuration then some v else none

/-- The function `getnum` of package `time`: one or two digits, exactly two when `fixed`. -/
def getnum (cs : List Char) (fixed : Bool) : Option (Nat × List Char) :=
  match cs with
  | [] => none
  | c0 :: rest =>
    match digit c0 with
    | none => none
    | some d0 =>
      match rest with
      | [] => if fixed then none else some (d0, rest)
      | c1 :: rest1 =>
        match digit c1 with
        | none => if fixed then none else some (d0, rest)
        | some d1 => some (d0 * 10 + d1, rest1)

/-- The function `skip` of package `time` for a one-character literal of the layout. -/
def skipChar (c : Char) (cs : List Char) : Option (List Char) :=
  match cs with
  | [] => none
  | c0 :: rest => if c0 = c then some rest else none

/-- The function `cutspace` of package `time`. -/
def cutspace : List Char → List Char
  | ' ' :: cs => cutspace cs
  | cs => cs

/-- The function `skip` of package `time` for the space of the layout: the value may be
at its end, else it starts with a space, and all its leading spaces go. -/
def skipSpace (cs : List Char) : Option (List Char) :=
  match cs with
  | [] => some []
  | c :: _ => if c = ' ' then some (cutspace cs) else none

/-- Leap years of the Gregorian calendar. -/
def isLeap (year : Nat) : Bool := year % 4 = 0 ∧ (year % 100 ≠ 0 ∨ year % 400 = 0)

/-- The function `daysIn` of package `time`. -/
def daysIn (month year : Nat) : Nat :=
  if month = 2 then (if isLeap year then 29 else 28)
  else if month = 4 ∨ month = 6 ∨ month = 9 ∨ month = 11 then 30
  else 31

/-- Days from 1970-01-01 to the given date of the proleptic Gregorian calendar. -/
def daysFromCivil (year month day : Nat) : Int :=
  let y : Int := if month ≤ 2 then (year : Int) - 1 else (year : Int)
  let era : Int := y / 400
  let yoe : Int := y - era * 400
  let mp : Int := if month ≤ 2 then (month : Int) + 9 else (month : Int) - 3
  let doy : Int := (153 * mp + 2) / 5 + (day : Int) - 1
  let doe : Int := yoe * 365 + yoe / 4 - yoe / 100 + doy
  era * 146097 + doe - 719468

/-- The leading digits of a list of characters, and the rest. -/
def spanDigits : List Char → List Char × List Char
  | [] => ([], [])
  | c :: cs =>
    match digit c with
    | some _ => (c :: (spanDigits cs).1, (spanDigits cs).2)
    | none => ([], c :: cs)

/-- The fraction of a second that `time.Parse` accepts after the seconds although the
layout has none: a period or a comma and digits, of which nine count.  Gives the
nanoseconds and the rest. -/
def fracSecond (cs : List Char) : Nat × List Char :=
  match cs with
  | sep :: c :: rest =>
    if (sep = '.' ∨ sep = ',') ∧ (digit c).isSome then
      let ds := spanDigits (c :: rest)
      let used := ds.1.take 9
      match digits used 0 with
      | some ns => (ns * 10 ^ (9 - used.length), ds.2)
      | none => (0, cs)
    else (0, cs)
  | _ => (0, cs)

/-- The call `time.Parse(ClockTimeFormat, value)`, as package `time` of Go 1.17 and later
parses it: a year of four digits, a month and a day of two, one space or more, an hour of
one or two digits, minutes and seconds of two, an optional fraction of a second, the
letter `Z`, and nothing after it; the date must exist. -/
def parseClockTime (value : String) : Option Time :=
  let cs := value.toList
  if cs.length < 4 then none else
  match digits (cs.take 4) 0 with
  | none => none
  | some year =>
  match skipChar '-' (cs.drop 4) with
  | none => none
  | some cs =>
  match getnum cs true with
  | none => none
  | some (month, cs) =>
  if month = 0 ∨ 12 < month then none else
  match skipChar '-' cs with
  | none => none
  | some cs =>
  match getnum cs true with
  | none => none
  | some (day, cs) =>
  match skipSpace cs with
  | none => none
  | some cs =>
  match getnum cs false with
  | none => none
  | some (hour, cs) =>
  if 24 ≤ hour then none else
  match skipChar ':' cs with
  | none => none
  | some cs =>
  match getnum cs true with
  | none => none
  | some (min, cs) =>
  if 60 ≤ min then none else
  match skipChar ':' cs with
  | none => none
  | some cs =>
  match getnum cs true with
  | none => none
  | some (sec, cs) =>
  if 60 ≤ sec then none else
  let fr := fracSecond cs
  match skipChar 'Z' fr.2 with
  | none => none
  | some cs =>
  if cs ≠ [] then none
  else if day < 1 ∨ daysIn month year < day then none
  else
    some ⟨(daysFromCivil year month day * 86400 + (hour : Int) * 3600 + (min : Int) * 60
      + (sec : Int)) * Second + (fr.1 : Int)⟩

/-- A non-negative `float64`: the number `m * 2 ^ e`, or positive infinity. -/
inductive PosFloat where
  | fin (m : Nat) (e : Int)
  | inf
  deriving DecidableEq

/-- The number of binary digits of `n`, for `n` below `2 ^ fuel`. -/
def bitLength : Nat → Nat → Nat
  | 0, _ => 0
  | fuel + 1, n => if n = 0 then 0 else bitLength fuel (n / 2) + 1

/-- Whether `2 ^ l ≤ p / q`. -/
def atLeastPow (p q : Nat) (l : Int) : Bool :=
  if 0 ≤ l then q * 2 ^ l.toNat ≤ p else q ≤ p * 2 ^ (-l).toNat

/-- The quotient `p / (q * 2 ^ e)` rounded to the nearest integer, ties to even. -/
def roundQuot (p q : Nat) (e : Int) : Nat :=
  let num := if 0 ≤ e then p else p * 2 ^ (-e).toNat
  let den := if 0 ≤ e then q * 2 ^ e.toNat else q
  let m := num / den
  let r := num % den
  if den < 2 * r ∨ (2 * r = den ∧ m % 2 = 1) then m + 1 else m

/-- The `float64` nearest to `p / q` (ties to even), for `q` positive: 53 significant bits,
no exponent under -1074, infinity from `2 ^ 1024` on. -/
def roundFloat (p q : Nat) : PosFloat :=
  if p = 0 then .fin 0 0
  else
    let l : Int := (bitLength 4096 p : Int) - (bitLength 4096 q : Int)
    let lg : Int := if atLeastPow p q l then l else l - 1
    let e : Int := max (lg - 52) (-1074)
    let m := roundQuot p q e
    let me : Nat × Int := if m = 2 ^ 53 then (2 ^ 52, e + 1) else (m, e)
    if 2 ^ 52 ≤ me.1 ∧ 972 ≤ me.2 then .inf
    else .fin me.1 me.2

/-- A fraction with the value of `m * 2 ^ e`. -/
def dyadic (m : Nat) (e : Int) : Nat × Nat :=
  if 0 ≤ e then (m * 2 ^ e.toNat, 1) else (m, 2 ^ (-e).toNat)

/-- The `float64` product. Infinity times zero does not occur in `ParseDuration`
as a used value; it is taken as zero here. -/
def PosFloat.mul : PosFloat → PosFloat → PosFloat
  | .fin m1 e1, .fin m2 e2 =>
    let d := dyadic (m1 * m2) (e1 + e2)
    roundFloat d.1 d.2
  | .fin 0 _, .inf => .fin 0 0
  | .inf, .fin 0 _ => .fin 0 0
  | _, _ => .inf


/-- The conversion of a finite non-negative `float64` to `uint64`: its integer part. -/
def PosFloat.trunc : PosFloat → Nat
  | .fin m e => if 0 ≤ e then m * 2 ^ e.toNat else m / 2 ^ (-e).toNat
  | .inf => 0

/-- The `float64` quotient of the whole number `a` (exact as a `float64`) by a positive
`float64`. -/
def PosFloat.divNat (a : Nat) : PosFloat → PosFloat
  | .fin m e => roundFloat (a * (dyadic m e).2) (dyadic m e).1
  | .inf => .fin 0 0

/-- The variable `scale` of `leadingFraction` after `k` digits: `k` times multiplied
by ten, as a `float64`. -/
def scaleAfter : Nat → PosFloat
  | 0 => .fin 1 0
  | k + 1 => (scaleAfter k).mul (.fin 10 0)

/-- The function `leadingInt` of package `time`, continuing from `x`. -/
def leadingInt : List Char → Nat → Option (Nat × List Char)
  | [], x => some (x, [])
  | c :: cs, x =>
    match digit c with
    | none => some (x, c :: cs)
    | some d =>
      if 2 ^ 63 / 10 < x then none
      else if 2 ^ 63 < x * 10 + d then none
      else leadingInt cs (x * 10 + d)

/-- The function `leadingFraction` of package `time`, continuing from `x` after `k` counted
digits: the digits after an overflow are dropped. -/
def leadingFraction : List Char → Nat → Nat → Bool → Nat × Nat × List Char
  | [], x, k, _ => (x, k, [])
  | c :: cs, x, k, overflow =>
    match digit c with
    | none => (x, k, c :: cs)
    | some d =>
      if overflow then leadingFraction cs x k true
      else if (2 ^ 63 - 1) / 10 < x then leadingFraction cs x k true
      else if 2 ^ 63 < x * 10 + d then leadingFraction cs x k true
      else leadingFraction cs (x * 10 + d) (k + 1) false

/-- The characters of the unit: up to the next period or digit. -/
def spanUnit : List Char → List Char × List Char
  | [] => ([], [])
  | c :: cs =>
    if c = '.' ∨ (digit c).isSome then ([], c :: cs)
    else (c :: (spanUnit cs).1, (spanUnit cs).2)

/-- The variable `unitMap` of package `time`, in nanoseconds. -/
def unitMap (u : String) : Option Nat :=
  if u = "ns" then some 1
  else if u = "us" ∨ u = "µs" ∨ u = "μs" then some 1000
  else if u = "ms" then some 1000000
  else if u = "s" then some 1000000000
  else if u = "m" then some 60000000000
  else if u = "h" then some 3600000000000
  else none

/-- The loop of `time.ParseDuration` over the terms of the duration; `d` is the sum so far,
a `uint64`.  Every round takes at least one character, so the length of the input is
enough fuel. -/
def durationLoop (orig : String) : Nat → List Char → Nat → Except DurationError Nat
  | _, [], d => .ok d
  | 0, _ :: _, _ => .error (.invalid orig)
  | fuel + 1, c :: cs, d =>
    if ¬ (c = '.' ∨ (digit c).isSome) then .error (.invalid orig)
    else
      match leadingInt (c :: cs) 0 with
      | none => .error (.invalid orig)
      | some (v, s1) =>
        let pre : Bool := s1.length ≠ (c :: cs).length
        let fr : Nat × Nat × List Char :=
          match s1 with
          | '.' :: s2 => leadingFraction s2 0 0 false
          | _ => (0, 0, s1)
        let post : Bool :=
          match s1 with
          | '.' :: s2 => fr.2.2.length ≠ s2.length
          | _ => false
        if ¬ pre ∧ ¬ post then .error (.invalid orig)
        else
          let u := spanUnit fr.2.2
          if u.1 = [] then .error (.missingUnit orig)
          else
            match unitMap (String.mk u.1) with
            | none => .error (.unknownUnit (String.mk u.1) orig)
            | some unit =>
              if 2 ^ 63 / unit < v then .error (.invalid orig)
              else
                let v1 := v * unit
                let v2 :=
                  if 0 < fr.1 then
                    v1 + ((roundFloat fr.1 1).mul ((scaleAfter fr.2.1).divNat unit)).trunc
                  else v1
                if 2 ^ 63 < v2 then .error (.invalid orig)
                else
                  let d1 := (d + v2) % 2 ^ 64
                  if 2 ^ 63 < d1 then .error (.invalid orig)
                  else durationLoop orig fuel u.2 d1

/-- The function `time.ParseDuration`. -/
def goParseDuration (s : String) : Except DurationError Int :=
  let body : Bool × List Char :=
    match s.toList with
    | '-' :: cs => (true, cs)
    | '+' :: cs => (false, cs)
    | cs => (false, cs)
  if body.2 = ['0'] then .ok 0
  else if body.2 = [] then .error (.invalid s)
  else
    match durationLoop s body.2.length body.2 0 with
    | .error e => .error e
    | .ok d =>
      if body.1 then .ok (-(d : Int))
      else if 2 ^ 63 - 1 < d then .error (.invalid s)
      else .ok (d : Int)

/-- A sample of the function `core.IsVariable`, which is not in the file and which the
statements take as the parameter `Lib.IsVariable`.  The spec calls it the variable-naming
convention of the engine and writes the variable of its example as `$d`; the patterns of
this engine write a variable with a leading question mark.  The sample takes a string
that starts with either character as a variable. -/
def goIsVariable (s : String) : Bool :=
  match s.toList with
  | '?' :: _ => true
  | '$' :: _ => true
  | _ => false

/-- The library, with the model of each function; a `float64` outside the `int64` range
converts to the least `int64`, as on amd64. -/
def goLib : Lib where
  IsVariable := goIsVariable
  Atoi := goAtoi
  Parse := fun layout value => if layout = ClockTimeFormat then parseClockTime value else none
  ParseDuration := goParseDuration
  float64Overflow := fun _ => minDuration

/-- The library in which no string is a variable, the rest as in `goLib`. -/
def plainLib : Lib := { goLib with IsVariable := fun _ => false }

/-! ## Sample surroundings for concrete evaluations -/

/-- The state of the sample timer store: the timers armed, newest first. -/
abbrev Armed := List (String × Fields × Int)

/-- A sample timer store in which `Add` of a key that is armed and `Rem` of a key that is
not armed fail. -/
def strictTimers : Timers Armed where
  Add := fun st key payload d =>
    if st.any (fun t => t.1 = key) then (st, some (.store "exists"))
    else ((key, payload, d) :: st, none)
  Rem := fun st key =>
    if st.any (fun t => t.1 = key) then (st.filter (fun t => t.1 ≠ key), none)
    else (st, some (.store "not found"))

/-- The timer store as a map from key to timer: `Add` inserts the timer under its key,
in the place of the one that was there, `Rem` erases the key, and both always succeed. -/
def mapTimers : Timers Armed where
  Add := fun st key payload d => ((key, payload, d) :: st.filter (fun t => t.1 ≠ key), none)
  Rem := fun st key => (st.filter (fun t => t.1 ≠ key), none)

/-- The keys of the timers that are armed. -/
def storeKeys (st : Armed) : List String := st.map (fun t => t.1)

/-- The service with implicit timers on, over the sample store. -/
def onService : Service Armed := ⟨true, strictTimers⟩

/-- The service with implicit timers off, over the sample store. -/
def offService : Service Armed := ⟨false, strictTimers⟩

/-- A clock that stands still at 2026-01-01 00:00:00 UTC. -/
def stillClock : Clock := fun _ => ⟨1767225600 * Second⟩

/-- Sample surroundings: no timer armed, the clock standing still. -/
def sys0 : Sys Armed := ⟨[], stillClock⟩

/-- A branch whose pattern is the map with the one field `after`. -/
def afterBranch (x : Value) : Branch := ⟨.map (.cons "after" x .nil)⟩

/-- A specification with the one node `B`, whose branches are message branches with the
given patterns. -/
def specB (patterns : List Branch) : Spec := ⟨[("B", ⟨some ⟨"message", patterns⟩⟩)]⟩

/-- The stride from node `A` to node `B` with the given bindings. -/
def strideAB (Bs : Fields) : Stride := ⟨some ⟨"A", .nil⟩, some ⟨"B", Bs⟩⟩

/-! ## Lemmas on the loops -/

section Loops

variable {σ : Type} (s : Service σ) (lib : Lib) (mid : String)

theorem considerBranches_append (dest : State) (xs ys : List Branch) (w : Sys σ) :
    considerBranches s lib mid dest (xs ++ ys) w =
      ((considerBranches s lib mid dest xs w).1 ++
          (considerBranches s lib mid dest ys (considerBranches s lib mid dest xs w).2).1,
        (considerBranches s lib mid dest ys (considerBranches s lib mid dest xs w).2).2) := by
  induction xs generalizing w with
  | nil => simp [considerBranches]
  | cons x xs ih => simp [considerBranches, ih, List.append_assoc]

theorem considerBranches_cons (dest : State) (b : Branch) (bs : List Branch) (w : Sys σ) :
    considerBranches s lib mid dest (b :: bs) w =
      ((considerBranch s lib mid dest b w).1 ++
          (considerBranches s lib mid dest bs (considerBranch s lib mid dest b w).2).1,
        (considerBranches s lib mid dest bs (considerBranch s lib mid dest b w).2).2) := rfl

theorem considerStrides_append (spec : Spec) (xs ys : List Stride) (w : Sys σ) :
    considerStrides s lib mid spec (xs ++ ys) w =
      ((considerStrides s lib mid spec xs w).1 ++
          (considerStrides s lib mid spec ys (considerStrides s lib mid spec xs w).2).1,
        (considerStrides s lib mid spec ys (considerStrides s lib mid spec xs w).2).2) := by
  induction xs generalizing w with
  | nil => simp [considerStrides]
  | cons x xs ih => simp [considerStrides, ih, List.append_assoc]

theorem considerWalked_enabled (spec : Spec) (walked : Walked) (w : Sys σ)
    (h : s.ImplicitTimers = true) :
    considerWalked s lib mid spec walked w = considerStrides s lib mid spec walked.Strides w := by
  simp [considerWalked, h]

/-- A step is processed stride by stride: the strides before, the stride, the strides
after, each from the surroundings that the part before leaves. -/
theorem considerWalked_split (spec : Spec) (pre post : List Stride) (stride : Stride)
    (w : Sys σ) (h : s.ImplicitTimers = true) :
    considerWalked s lib mid spec ⟨pre ++ stride :: post⟩ w =
      ((considerWalked s lib mid spec ⟨pre⟩ w).1 ++
          ((considerStride s lib mid spec stride (considerWalked s lib mid spec ⟨pre⟩ w).2).1 ++
            (considerWalked s lib mid spec ⟨post⟩
              (considerStride s lib mid spec stride
                (considerWalked s lib mid spec ⟨pre⟩ w).2).2).1),
        (considerWalked s lib mid spec ⟨post⟩
          (considerStride s lib mid spec stride (considerWalked s lib mid spec ⟨pre⟩ w).2).2).2) := by
  simp [considerWalked_enabled, h, considerStrides_append, considerStrides]

theorem considerWalked_single (spec : Spec) (stride : Stride) (w : Sys σ)
    (h : s.ImplicitTimers = true) :
    considerWalked s lib mid spec ⟨[stride]⟩ w = considerStride s lib mid spec stride w := by
  simp [considerWalked_enabled, h, considerStrides]

theorem considerBranch_of_after_none (dest : State) (b : Branch) (w : Sys σ)
    (h : b.after = none) : considerBranch s lib mid dest b w = ([], w) := by
  unfold Branch.after at h
  unfold considerBranch
  split
  · rename_i m hm
    rw [hm] at h
    simp only at h
    simp [h]
  · rfl

theorem considerBranches_of_after_none (dest : State) (bs : List Branch) (w : Sys σ)
    (h : ∀ b ∈ bs, b.after = none) : considerBranches s lib mid dest bs w = ([], w) := by
  induction bs generalizing w with
  | nil => rfl
  | cons b bs ih =>
    have hb := considerBranch_of_after_none s lib mid dest b w (h b (List.mem_cons_self _ _))
    have hrest := ih w (fun b' hb' => h b' (List.mem_cons_of_mem _ hb'))
    simp [considerBranches, hb, hrest]

theorem rems_append (xs ys : List Event) : rems (xs ++ ys) = rems xs ++ rems ys := by
  induction xs with
  | nil => rfl
  | cons x xs ih => cases x <;> simp [rems, ih]

theorem adds_append (xs ys : List Event) : adds (xs ++ ys) = adds xs ++ adds ys := by
  induction xs with
  | nil => rfl
  | cons x xs ih => cases x <;> simp [adds, ih]

theorem after_eq_some {b : Branch} {x0 : Value} (h : b.after = some x0) :
    ∃ m, b.Pattern = .map m ∧ m.lookup "after" = some x0 := by
  unfold Branch.after at h
  split at h
  · exact ⟨_, by assumption, h⟩
  · cases h

theorem considerBranch_of_err (dest : State) (b : Branch) (w : Sys σ) (x0 : Value)
    (e : GoError) (h : b.after = some x0)
    (herr : (InterpretTime lib w.clock (resolve lib dest.Bs x0)).err = some e) :
    considerBranch s lib mid dest b w =
      ([.err e], ⟨w.store, (InterpretTime lib w.clock (resolve lib dest.Bs x0)).clock⟩) := by
  obtain ⟨m, hm, hl⟩ := after_eq_some h
  simp [considerBranch, hm, hl, herr]

theorem considerBranch_of_ok (dest : State) (b : Branch) (w : Sys σ) (x0 : Value)
    (h : b.after = some x0)
    (herr : (InterpretTime lib w.clock (resolve lib dest.Bs x0)).err = none) :
    considerBranch s lib mid dest b w =
      (.add (mid ++ "/" ++ dest.NodeName) (.cons "after" (resolve lib dest.Bs x0) .nil)
            ((InterpretTime lib w.clock (resolve lib dest.Bs x0)).t.Sub
              (InterpretTime lib w.clock (resolve lib dest.Bs x0)).clock.now) ::
          (match (s.timers.Add w.store (mid ++ "/" ++ dest.NodeName)
              (.cons "after" (resolve lib dest.Bs x0) .nil)
              ((InterpretTime lib w.clock (resolve lib dest.Bs x0)).t.Sub
                (InterpretTime lib w.clock (resolve lib dest.Bs x0)).clock.now)).2 with
            | some e => [.err e]
            | none => []),
        ⟨(s.timers.Add w.store (mid ++ "/" ++ dest.NodeName)
              (.cons "after" (resolve lib dest.Bs x0) .nil)
              ((InterpretTime lib w.clock (resolve lib dest.Bs x0)).t.Sub
                (InterpretTime lib w.clock (resolve lib dest.Bs x0)).clock.now)).1,
          (InterpretTime lib w.clock (resolve lib dest.Bs x0)).clock.next⟩) := by
  obtain ⟨m, hm, hl⟩ := after_eq_some h
  simp only [considerBranch, hm, hl, herr]
  split <;> rfl

theorem rems_considerBranch (dest : State) (b : Branch) (w : Sys σ) :
    rems (considerBranch s lib mid dest b w).1 = [] := by
  cases h : b.after with
  | none => rw [considerBranch_of_after_none s lib mid dest b w h]; rfl
  | some x0 =>
    cases herr : (InterpretTime lib w.clock (resolve lib dest.Bs x0)).err with
    | some e => rw [considerBranch_of_err s lib mid dest b w x0 e h herr]; rfl
    | none =>
      rw [considerBranch_of_ok s lib mid dest b w x0 h herr]
      simp only [rems]
      split <;> rfl

theorem rems_considerBranches (dest : State) (bs : List Branch) (w : Sys σ) :
    rems (considerBranches s lib mid dest bs w).1 = [] := by
  induction bs generalizing w with
  | nil => rfl
  | cons b bs ih => simp [considerBranches, rems_append, rems_considerBranch, ih]

theorem rems_enter (spec : Spec) (stride : Stride) (w : Sys σ) :
    rems (enter s lib mid spec stride w).1 = [] := by
  unfold enter
  split
  · rfl
  · split
    · rfl
    · split
      · rfl
      · split
        · rfl
        · exact rems_considerBranches s lib mid _ _ _

theorem enter_of_untimed (spec : Spec) (f : Option State) (dest : State) (w : Sys σ)
    (h : spec.Nodes.lookup dest.NodeName = none ∨
      ∃ node, spec.Nodes.lookup dest.NodeName = some node ∧
        (node.Branches = none ∨
          ∃ bs, node.Branches = some bs ∧
            (bs.Typ ≠ "message" ∨ ∀ b ∈ bs.Branches, b.after = none))) :
    enter s lib mid spec ⟨f, some dest⟩ w = ([], w) := by
  rcases h with h | ⟨node, hn, h | ⟨bs, hb, h | h⟩⟩
  · simp [enter, h]
  · simp [enter, hn, h]
  · simp [enter, hn, hb, h]
  · simp only [enter, hn, hb]
    split
    · rfl
    · exact considerBranches_of_after_none s lib mid dest bs.Branches w h

theorem considerStride_of_both (spec : Spec) (f dest : State) (w : Sys σ) :
    considerStride s lib mid spec ⟨some f, some dest⟩ w =
      (.rem (mid ++ "/" ++ f.NodeName) ::
          (enter s lib mid spec ⟨none, some dest⟩
            ⟨(s.timers.Rem w.store (mid ++ "/" ++ f.NodeName)).1, w.clock⟩).1,
        (enter s lib mid spec ⟨none, some dest⟩
          ⟨(s.timers.Rem w.store (mid ++ "/" ++ f.NodeName)).1, w.clock⟩).2) := rfl

theorem considerStride_of_no_from (spec : Spec) (dest : State) (w : Sys σ) :
    considerStride s lib mid spec ⟨none, some dest⟩ w =
      enter s lib mid spec ⟨none, some dest⟩ w := by
  simp [considerStride, leave, enter]

theorem considerStride_of_no_to (spec : Spec) (f : Option State) (w : Sys σ) :
    considerStride s lib mid spec ⟨f, none⟩ w = ([], w) := by
  cases f <;> rfl

theorem InterpretTime_err_clock (clk clk0 : Clock) (x : Value) :
    (InterpretTime lib clk x).err = (InterpretTime lib clk0 x).err := by
  unfold InterpretTime
  split
  · rfl
  · rfl
  · rfl
  · split
    · rfl
    · split
      · rfl
      · split <;> rfl
  · rfl

theorem InterpretTime_clock_of_err (clk : Clock) (x : Value) (e : GoError)
    (h : (InterpretTime lib clk x).err = some e) : (InterpretTime lib clk x).clock = clk := by
  unfold InterpretTime at h ⊢
  split
  · simp [secondsFromNow] at h
  · simp [secondsFromNow] at h
  · simp [secondsFromNow] at h
  · rename_i str
    cases ha : lib.Atoi str with
    | some secs => simp [ha, secondsFromNow] at h
    | none =>
      cases hp : lib.Parse ClockTimeFormat str with
      | some t => simp [ha, hp] at h
      | none =>
        cases hd : lib.ParseDuration str with
        | ok d => simp [ha, hp, hd] at h
        | error e => rfl
  · rfl

/-- Lines 88 to 92 give the value that the field `after` stands for. -/
theorem resolve_eq_afterValue (Bs : Fields) (x : Value) :
    resolve lib Bs x = afterValue lib Bs x := by
  cases x with
  | string v =>
    cases hv : lib.IsVariable v <;> cases hb : Bs.lookup v <;>
      simp [resolve, afterValue, Fields.get, hv, hb]
  | _ => rfl

theorem adds_considerBranches (dest : State) (bs : List Branch) (w : Sys σ) :
    adds (considerBranches s lib mid dest bs w).1 =
      (armed lib dest.Bs bs).map
        (fun x => (mid ++ "/" ++ dest.NodeName, Fields.cons "after" x .nil)) := by
  induction bs generalizing w with
  | nil => rfl
  | cons b bs ih =>
    rw [considerBranches_cons, adds_append, ih]
    cases h : b.after with
    | none =>
      rw [considerBranch_of_after_none s lib mid dest b w h]
      simp [armed, h, adds]
    | some x0 =>
      cases herr : (InterpretTime lib w.clock (resolve lib dest.Bs x0)).err with
      | some e =>
        rw [considerBranch_of_err s lib mid dest b w x0 e h herr]
        rw [resolve_eq_afterValue] at herr
        have hi : interpretable lib (afterValue lib dest.Bs x0) = false := by
          unfold interpretable
          rw [InterpretTime_err_clock lib _ w.clock, herr]
          rfl
        simp [armed, h, hi, adds]
      | none =>
        rw [considerBranch_of_ok s lib mid dest b w x0 h herr]
        simp only [resolve_eq_afterValue] at herr ⊢
        have hi : interpretable lib (afterValue lib dest.Bs x0) = true := by
          unfold interpretable
          rw [InterpretTime_err_clock lib _ w.clock, herr]
          rfl
        simp only [armed, h, hi, adds, if_true, List.map_cons, List.cons_append]
        congr 1
        split <;> simp [adds]

/-- A step is processed branch by branch inside a stride that enters a node with message
branches: the strides before, the removal, the branches before, the branch, the branches
after, the strides after. -/
theorem considerWalked_branch_split (spec : Spec) (pre post : List Stride) (stride : Stride)
    (dest : State) (node : Node) (bs : Branches) (bpre bpost : List Branch) (b : Branch)
    (w : Sys σ) (hon : s.ImplicitTimers = true) (hto : stride.To = some dest)
    (hnode : spec.Nodes.lookup dest.NodeName = some node) (hbs : node.Branches = some bs)
    (htyp : bs.Typ = "message") (hsplit : bs.Branches = bpre ++ b :: bpost) :
    considerWalked s lib mid spec ⟨pre ++ stride :: post⟩ w =
      ((considerWalked s lib mid spec ⟨pre⟩ w).1 ++
        (leave s mid stride (considerWalked s lib mid spec ⟨pre⟩ w).2).1 ++
        (considerBranches s lib mid dest bpre
          (leave s mid stride (considerWalked s lib mid spec ⟨pre⟩ w).2).2).1 ++
        (considerBranch s lib mid dest b
          (considerBranches s lib mid dest bpre
            (leave s mid stride (considerWalked s lib mid spec ⟨pre⟩ w).2).2).2).1 ++
        (considerBranches s lib mid dest bpost
          (considerBranch s lib mid dest b
            (considerBranches s lib mid dest bpre
              (leave s mid stride (considerWalked s lib mid spec ⟨pre⟩ w).2).2).2).2).1 ++
        (considerWalked s lib mid spec ⟨post⟩
          (considerBranches s lib mid dest bpost
            (considerBranch s lib mid dest b
              (considerBranches s lib mid dest bpre
                (leave s mid stride (considerWalked s lib mid spec ⟨pre⟩ w).2).2).2).2).2).1,
        (considerWalked s lib mid spec ⟨post⟩
          (considerBranches s lib mid dest bpost
            (considerBranch s lib mid dest b
              (considerBranches s lib mid dest bpre
                (leave s mid stride (considerWalked s lib mid spec ⟨pre⟩ w).2).2).2).2).2).2) := by
  rw [considerWalked_split s lib mid spec pre post _ w hon]
  have henter : ∀ w1 : Sys σ, enter s lib mid spec stride w1 =
      considerBranches s lib mid dest (bpre ++ b :: bpost) w1 := by
    intro w1
    simp only [enter, hto, hnode, hbs, htyp, ne_eq, not_true_eq_false, if_false, hsplit]
  simp only [considerStride, henter, considerBranches_append, considerBranches_cons,
    List.append_assoc]

theorem resolve_of_bound (Bs : Fields) (v : String) (y : Value)
    (hvar : lib.IsVariable v = true) (hbound : Bs.lookup v = some y) :
    resolve lib Bs (.string v) = y := by
  simp [resolve, hvar, Fields.get, hbound]

theorem resolve_of_unbound (Bs : Fields) (v : String)
    (hvar : lib.IsVariable v = true) (hbound : Bs.lookup v = none) :
    resolve lib Bs (.string v) = .nil := by
  simp [resolve, hvar, Fields.get, hbound]

theorem resolve_of_isNumber (Bs : Fields) (n : Value) (h : n.isNumber = true) :
    resolve lib Bs n = n := by
  cases n <;> simp_all [resolve, Value.isNumber]

theorem InterpretTime_of_isNumber (clk : Clock) (n : Value) (h : n.isNumber = true) :
    InterpretTime lib clk n = secondsFromNow clk (lib.durationOf n) := by
  cases n <;> simp_all [InterpretTime, Value.isNumber, Lib.durationOf]

theorem wrapInt64_bounds (x : Int) : minDuration ≤ wrapInt64 x ∧ wrapInt64 x ≤ maxDuration := by
  unfold wrapInt64 minDuration maxDuration
  constructor <;> omega

theorem wrapInt64_of_bounds (x : Int) (h1 : minDuration ≤ x) (h2 : x ≤ maxDuration) :
    wrapInt64 x = x := by
  unfold wrapInt64
  unfold minDuration at h1
  unfold maxDuration at h2
  omega

theorem after_of_pattern {b : Branch} {m : Fields} {x0 : Value} (hpat : b.Pattern = .map m)
    (hafter : m.lookup "after" = some x0) : b.after = some x0 := by
  simp [Branch.after, hpat, hafter]

theorem Sub_Add_self (t : Time) (k : Int) (h1 : minDuration ≤ k) (h2 : k ≤ maxDuration) :
    (t.Add k).Sub t = k := by
  unfold Time.Sub Time.Add
  simp only
  have : t.unixNano + k - t.unixNano = k := by omega
  rw [this]
  simp [not_lt.mpr h1, not_lt.mpr h2]

end Loops

/-! ## Lemmas on the timer key, the float64 values, the store calls and the store keys -/

theorem timerKey_data (mid name : String) :
    (timerKey mid name).data = mid.data ++ '/' :: name.data := by
  simp [timerKey, String.data_append]

theorem split_at_first {c : Char} (l1 l2 r1 r2 : List Char) (h1 : c ∉ l1) (h2 : c ∉ l2)
    (h : l1 ++ c :: r1 = l2 ++ c :: r2) : l1 = l2 ∧ r1 = r2 := by
  induction l1 generalizing l2 with
  | nil =>
    cases l2 with
    | nil => simpa using h
    | cons y ys =>
      simp only [List.nil_append, List.cons_append, List.cons.injEq] at h
      exact absurd (h.1 ▸ List.mem_cons_self _ _) h2
  | cons x xs ih =>
    cases l2 with
    | nil =>
      simp only [List.nil_append, List.cons_append, List.cons.injEq] at h
      exact absurd (h.1 ▸ List.mem_cons_self _ _) h1
    | cons y ys =>
      simp only [List.cons_append, List.cons.injEq] at h
      obtain ⟨hxy, hrest⟩ := h
      have := ih ys (fun hm => h1 (List.mem_cons_of_mem _ hm))
        (fun hm => h2 (List.mem_cons_of_mem _ hm)) hrest
      exact ⟨by rw [hxy, this.1], this.2⟩

theorem split_at_last {c : Char} (l1 l2 r1 r2 : List Char) (h1 : c ∉ r1) (h2 : c ∉ r2)
    (h : l1 ++ c :: r1 = l2 ++ c :: r2) : l1 = l2 ∧ r1 = r2 := by
  have hr := congrArg List.reverse h
  simp only [List.reverse_append, List.reverse_cons, List.append_assoc, List.singleton_append]
    at hr
  have := split_at_first r1.reverse r2.reverse l1.reverse l2.reverse
    (by simpa using h1) (by simpa using h2) hr
  exact ⟨List.reverse_injective this.2, List.reverse_injective this.1⟩

theorem truncToZero_of_floor (m : ℚ) (n : Nat) (hm : 0 ≤ m) (hn : ⌊m⌋ = (n : Int)) :
    truncToZero m = n ∧ truncToZero (-m) = -(n : Int) := by
  constructor
  · simp [truncToZero, hm, hn]
  · unfold truncToZero
    by_cases h0 : m = 0
    · subst h0
      simp at hn
      simp [← hn]
    · have hpos : 0 < m := lt_of_le_of_ne hm (Ne.symm h0)
      have : ¬ (0 ≤ -m) := by linarith
      rw [if_neg this, Int.ceil_neg, hn]

theorem float64_mag_floor (e frac : Nat) (hfrac : frac < 2 ^ 52) :
    ⌊(if e = 0 then (frac : ℚ) * 2 ^ (-1074 : Int)
        else ((2 ^ 52 + frac : Nat) : ℚ) * 2 ^ ((e : Int) - 1075))⌋ =
      ((if e = 0 then 0
        else if 1075 ≤ e then (2 ^ 52 + frac) * 2 ^ (e - 1075)
        else (2 ^ 52 + frac) / 2 ^ (1075 - e) : Nat) : Int) ∧
    (0 : ℚ) ≤ (if e = 0 then (frac : ℚ) * 2 ^ (-1074 : Int)
        else ((2 ^ 52 + frac : Nat) : ℚ) * 2 ^ ((e : Int) - 1075)) := by
  by_cases he : e = 0
  · simp only [he, if_true]
    have h1 : (0 : ℚ) ≤ (frac : ℚ) * 2 ^ (-1074 : Int) := by positivity
    refine ⟨?_, h1⟩
    rw [Nat.cast_zero, Int.floor_eq_zero_iff]
    refine ⟨h1, ?_⟩
    have hf : (frac : ℚ) < 2 ^ 52 := by exact_mod_cast hfrac
    have h2 : (2 : ℚ) ^ (-1074 : Int) ≤ 2 ^ (-52 : Int) :=
      zpow_le_zpow_right₀ (by norm_num) (by norm_num)
    have h3 : (0 : ℚ) < 2 ^ (-1074 : Int) := by positivity
    calc (frac : ℚ) * 2 ^ (-1074 : Int) < 2 ^ 52 * 2 ^ (-1074 : Int) :=
          mul_lt_mul_of_pos_right hf h3
      _ ≤ 2 ^ 52 * 2 ^ (-52 : Int) := by
          apply mul_le_mul_of_nonneg_left h2 (by positivity)
      _ = 1 := by norm_num
  · simp only [he, if_false]
    refine ⟨?_, by positivity⟩
    by_cases hbig : 1075 ≤ e
    · simp only [hbig, if_true]
      have : ((e : Int) - 1075) = ((e - 1075 : Nat) : Int) := by omega
      rw [this, zpow_natCast]
      have h2 : ((2 ^ 52 + frac : Nat) : ℚ) * 2 ^ (e - 1075) =
          (((2 ^ 52 + frac) * 2 ^ (e - 1075) : Nat) : ℚ) := by push_cast; ring
      rw [h2, Int.floor_natCast]
    · simp only [hbig, if_false]
      have : ((e : Int) - 1075) = -((1075 - e : Nat) : Int) := by omega
      rw [this, zpow_neg, zpow_natCast]
      have h2 : ((2 ^ 52 + frac : Nat) : ℚ) * ((2 : ℚ) ^ (1075 - e))⁻¹ =
          ((2 ^ 52 + frac : Nat) : ℚ) / ((2 ^ (1075 - e) : Nat) : ℚ) := by
        push_cast; rw [div_eq_mul_inv]
      rw [h2, Rat.floor_natCast_div_natCast]
      norm_cast

/-- The whole number that `float64Trunc` gives is the truncation toward zero of the number
that the `float64` is. -/
theorem float64Trunc_eq (bits : Nat) (q : ℚ) (h : float64Value bits = some q) :
    float64Trunc bits = some (truncToZero q) := by
  have hfrac : bits % 2 ^ 52 < 2 ^ 52 := Nat.mod_lt _ (by norm_num)
  obtain ⟨hfl, hnn⟩ := float64_mag_floor (bits / 2 ^ 52 % 2 ^ 11) (bits % 2 ^ 52) hfrac
  have ht := truncToZero_of_floor _ _ hnn hfl
  have hv : float64Value bits =
      if bits / 2 ^ 52 % 2 ^ 11 = 2047 then none
      else some (if bits / 2 ^ 63 % 2 = 1 then
          -(if bits / 2 ^ 52 % 2 ^ 11 = 0 then ((bits % 2 ^ 52 : Nat) : ℚ) * 2 ^ (-1074 : Int)
            else ((2 ^ 52 + bits % 2 ^ 52 : Nat) : ℚ) *
              2 ^ (((bits / 2 ^ 52 % 2 ^ 11 : Nat) : Int) - 1075))
        else (if bits / 2 ^ 52 % 2 ^ 11 = 0 then ((bits % 2 ^ 52 : Nat) : ℚ) * 2 ^ (-1074 : Int)
            else ((2 ^ 52 + bits % 2 ^ 52 : Nat) : ℚ) *
              2 ^ (((bits / 2 ^ 52 % 2 ^ 11 : Nat) : Int) - 1075))) := rfl
  have htr : float64Trunc bits =
      if bits / 2 ^ 52 % 2 ^ 11 = 2047 then none
      else some (if bits / 2 ^ 63 % 2 = 1 then
          -((if bits / 2 ^ 52 % 2 ^ 11 = 0 then 0
            else if 1075 ≤ bits / 2 ^ 52 % 2 ^ 11 then
              (2 ^ 52 + bits % 2 ^ 52) * 2 ^ (bits / 2 ^ 52 % 2 ^ 11 - 1075)
            else (2 ^ 52 + bits % 2 ^ 52) / 2 ^ (1075 - bits / 2 ^ 52 % 2 ^ 11) : Nat) : Int)
        else ((if bits / 2 ^ 52 % 2 ^ 11 = 0 then 0
            else if 1075 ≤ bits / 2 ^ 52 % 2 ^ 11 then
              (2 ^ 52 + bits % 2 ^ 52) * 2 ^ (bits / 2 ^ 52 % 2 ^ 11 - 1075)
            else (2 ^ 52 + bits % 2 ^ 52) / 2 ^ (1075 - bits / 2 ^ 52 % 2 ^ 11) : Nat) : Int)) :=
    rfl
  rw [hv] at h
  rw [htr]
  by_cases hinf : bits / 2 ^ 52 % 2 ^ 11 = 2047
  · rw [if_pos hinf] at h
    cases h
  · rw [if_neg hinf] at h ⊢
    have hq := Option.some.inj h
    rw [← hq]
    by_cases hs : bits / 2 ^ 63 % 2 = 1
    · rw [if_pos hs, if_pos hs]
      exact congrArg some ht.2.symm
    · rw [if_neg hs, if_neg hs]
      exact congrArg some ht.1.symm

section Calls

variable {σ₁ σ₂ : Type} (s₁ : Service σ₁) (s₂ : Service σ₂) (lib : Lib) (mid : String)

theorem considerBranch_calls (dest : State) (b : Branch) (w₁ : Sys σ₁) (w₂ : Sys σ₂)
    (h : w₁.clock = w₂.clock) :
    (considerBranch s₁ lib mid dest b w₁).1.filter Event.isCall =
        (considerBranch s₂ lib mid dest b w₂).1.filter Event.isCall ∧
      (considerBranch s₁ lib mid dest b w₁).2.clock =
        (considerBranch s₂ lib mid dest b w₂).2.clock := by
  cases ha : b.after with
  | none =>
    rw [considerBranch_of_after_none s₁ lib mid dest b w₁ ha,
      considerBranch_of_after_none s₂ lib mid dest b w₂ ha]
    exact ⟨rfl, h⟩
  | some x0 =>
    cases herr : (InterpretTime lib w₁.clock (resolve lib dest.Bs x0)).err with
    | some e =>
      rw [considerBranch_of_err s₁ lib mid dest b w₁ x0 e ha herr,
        considerBranch_of_err s₂ lib mid dest b w₂ x0 e ha (h ▸ herr)]
      simp [Event.isCall, h]
    | none =>
      rw [considerBranch_of_ok s₁ lib mid dest b w₁ x0 ha herr,
        considerBranch_of_ok s₂ lib mid dest b w₂ x0 ha (h ▸ herr)]
      simp only [List.filter_cons, Event.isCall, if_true, h]
      refine ⟨?_, trivial⟩
      congr 1
      split <;> split <;> rfl

theorem considerBranches_calls (dest : State) (bs : List Branch) (w₁ : Sys σ₁) (w₂ : Sys σ₂)
    (h : w₁.clock = w₂.clock) :
    (considerBranches s₁ lib mid dest bs w₁).1.filter Event.isCall =
        (considerBranches s₂ lib mid dest bs w₂).1.filter Event.isCall ∧
      (considerBranches s₁ lib mid dest bs w₁).2.clock =
        (considerBranches s₂ lib mid dest bs w₂).2.clock := by
  induction bs generalizing w₁ w₂ with
  | nil => exact ⟨rfl, h⟩
  | cons b bs ih =>
    have hb := considerBranch_calls s₁ s₂ lib mid dest b w₁ w₂ h
    have hrest := ih _ _ hb.2
    simp only [considerBranches, List.filter_append]
    exact ⟨by rw [hb.1, hrest.1], hrest.2⟩

theorem considerStride_calls (spec : Spec) (stride : Stride) (w₁ : Sys σ₁) (w₂ : Sys σ₂)
    (h : w₁.clock = w₂.clock) :
    (considerStride s₁ lib mid spec stride w₁).1.filter Event.isCall =
        (considerStride s₂ lib mid spec stride w₂).1.filter Event.isCall ∧
      (considerStride s₁ lib mid spec stride w₁).2.clock =
        (considerStride s₂ lib mid spec stride w₂).2.clock := by
  have hleave : (leave s₁ mid stride w₁).1 = (leave s₂ mid stride w₂).1 ∧
      (leave s₁ mid stride w₁).2.clock = (leave s₂ mid stride w₂).2.clock := by
    unfold leave
    split <;> exact ⟨rfl, h⟩
  have henter : ∀ (v₁ : Sys σ₁) (v₂ : Sys σ₂), v₁.clock = v₂.clock →
      (enter s₁ lib mid spec stride v₁).1.filter Event.isCall =
          (enter s₂ lib mid spec stride v₂).1.filter Event.isCall ∧
        (enter s₁ lib mid spec stride v₁).2.clock =
          (enter s₂ lib mid spec stride v₂).2.clock := by
    intro v₁ v₂ hv
    unfold enter
    split
    · exact ⟨rfl, hv⟩
    · split
      · exact ⟨rfl, hv⟩
      · split
        · exact ⟨rfl, hv⟩
        · split
          · exact ⟨rfl, hv⟩
          · exact considerBranches_calls s₁ s₂ lib mid _ _ v₁ v₂ hv
  have he := henter _ _ hleave.2
  simp only [considerStride, List.filter_append]
  exact ⟨by rw [hleave.1, he.1], he.2⟩

theorem considerStrides_calls (spec : Spec) (strides : List Stride) (w₁ : Sys σ₁)
    (w₂ : Sys σ₂) (h : w₁.clock = w₂.clock) :
    (considerStrides s₁ lib mid spec strides w₁).1.filter Event.isCall =
        (considerStrides s₂ lib mid spec strides w₂).1.filter Event.isCall ∧
      (considerStrides s₁ lib mid spec strides w₁).2.clock =
        (considerStrides s₂ lib mid spec strides w₂).2.clock := by
  induction strides generalizing w₁ w₂ with
  | nil => exact ⟨rfl, h⟩
  | cons x xs ih =>
    have hx := considerStride_calls s₁ s₂ lib mid spec x w₁ w₂ h
    have hrest := ih _ _ hx.2
    simp only [considerStrides, List.filter_append]
    exact ⟨by rw [hx.1, hrest.1], hrest.2⟩

end Calls

section Adds

variable {σ : Type} (s : Service σ) (lib : Lib) (mid : String)

theorem isAdd_considerBranches (dest : State) (bs : List Branch) (w : Sys σ) :
    (considerBranches s lib mid dest bs w).1.filter Event.isAdd =
      armedCalls lib mid dest bs w.clock := by
  induction bs generalizing w with
  | nil => rfl
  | cons b bs ih =>
    rw [considerBranches_cons, List.filter_append, ih]
    cases h : b.after with
    | none =>
      rw [considerBranch_of_after_none s lib mid dest b w h]
      simp [armedCalls, h]
    | some x0 =>
      cases herr : (InterpretTime lib w.clock (resolve lib dest.Bs x0)).err with
      | some e =>
        rw [considerBranch_of_err s lib mid dest b w x0 e h herr]
        simp only [resolve_eq_afterValue] at herr ⊢
        simp [armedCalls, h, herr, Event.isAdd]
      | none =>
        rw [considerBranch_of_ok s lib mid dest b w x0 h herr]
        simp only [resolve_eq_afterValue] at herr ⊢
        simp only [armedCalls, h, herr, List.filter_cons, Event.isAdd, if_true,
          List.cons_append, List.cons.injEq, true_and]
        have : ∀ l : List Event, l = [] → ∀ l', l ++ l' = l' := by
          intro l hl l'
          rw [hl, List.nil_append]
        apply this
        split <;> rfl

theorem armedCalls_length (dest : State) (bs : List Branch) (clk : Clock) :
    (armedCalls lib mid dest bs clk).length = (armed lib dest.Bs bs).length := by
  induction bs generalizing clk with
  | nil => rfl
  | cons b bs ih =>
    cases h : b.after with
    | none => simp [armedCalls, armed, h, ih]
    | some x0 =>
      cases herr : (InterpretTime lib clk (afterValue lib dest.Bs x0)).err with
      | some e =>
        have hi : interpretable lib (afterValue lib dest.Bs x0) = false := by
          unfold interpretable
          rw [InterpretTime_err_clock lib _ clk, herr]
          rfl
        simp [armedCalls, armed, h, herr, hi, ih]
      | none =>
        have hi : interpretable lib (afterValue lib dest.Bs x0) = true := by
          unfold interpretable
          rw [InterpretTime_err_clock lib _ clk, herr]
          rfl
        simp [armedCalls, armed, h, herr, hi, ih]

theorem armedCalls_shape (dest : State) (bs : List Branch) (clk : Clock) :
    ∀ ev ∈ armedCalls lib mid dest bs clk, ∃ x d,
      ev = .add (mid ++ "/" ++ dest.NodeName) (.cons "after" x .nil) d := by
  induction bs generalizing clk with
  | nil => intro ev hev; cases hev
  | cons b bs ih =>
    intro ev hev
    cases h : b.after with
    | none =>
      simp only [armedCalls, h] at hev
      exact ih _ ev hev
    | some x0 =>
      cases herr : (InterpretTime lib clk (afterValue lib dest.Bs x0)).err with
      | some e =>
        simp only [armedCalls, h, herr] at hev
        exact ih _ ev hev
      | none =>
        simp only [armedCalls, h, herr, List.mem_cons] at hev
        rcases hev with hev | hev
        · exact ⟨_, _, hev⟩
        · exact ih _ ev hev

theorem Sub_sign (t u : Time) :
    (t.Sub u < 0 ↔ t.unixNano < u.unixNano) ∧ (t.Sub u = 0 ↔ t.unixNano = u.unixNano) ∧
      (minDuration ≤ t.unixNano - u.unixNano → t.unixNano - u.unixNano ≤ maxDuration →
        t.Sub u = t.unixNano - u.unixNano) := by
  unfold Time.Sub minDuration maxDuration
  simp only
  refine ⟨?_, ?_, ?_⟩
  · split
    · constructor <;> intro <;> omega
    · split
      · constructor <;> intro <;> omega
      · constructor <;> intro <;> omega
  · split
    · constructor <;> intro <;> omega
    · split
      · constructor <;> intro <;> omega
      · constructor <;> intro <;> omega
  · intro h1 h2
    split
    · omega
    · split
      · omega
      · rfl

end Adds

section Keys

variable (s : Service Armed) (lib : Lib) (mid : String)

theorem storeKeys_add (st : Armed) (key : String) (payload : Fields) (d : Int) (K : String)
    (h : ∀ k ∈ storeKeys st, k = K) (hkey : key = K) :
    ∀ k ∈ storeKeys (mapTimers.Add st key payload d).1, k = K := by
  intro k hk
  simp only [mapTimers, storeKeys, List.map_cons, List.mem_cons, List.mem_map,
    List.mem_filter] at hk
  rcases hk with hk | ⟨t, ⟨ht, _⟩, htk⟩
  · rw [hk, hkey]
  · exact h k (by simp only [storeKeys, List.mem_map]; exact ⟨t, ht, htk⟩)

theorem storeKeys_rem (st : Armed) (key : String) (h : ∀ k ∈ storeKeys st, k = key) :
    storeKeys (mapTimers.Rem st key).1 = [] := by
  simp only [mapTimers, storeKeys, List.map_eq_nil_iff, List.filter_eq_nil_iff]
  intro t ht
  have := h t.1 (by simp only [storeKeys, List.mem_map]; exact ⟨t, ht, rfl⟩)
  simp [this]

theorem storeKeys_considerBranches (hs : s.timers = mapTimers) (dest : State)
    (bs : List Branch) (w : Sys Armed)
    (h : ∀ k ∈ storeKeys w.store, k = mid ++ "/" ++ dest.NodeName) :
    ∀ k ∈ storeKeys (considerBranches s lib mid dest bs w).2.store,
      k = mid ++ "/" ++ dest.NodeName := by
  induction bs generalizing w with
  | nil => exact h
  | cons b bs ih =>
    rw [considerBranches_cons]
    apply ih
    cases ha : b.after with
    | none =>
      rw [considerBranch_of_after_none s lib mid dest b w ha]
      exact h
    | some x0 =>
      cases herr : (InterpretTime lib w.clock (resolve lib dest.Bs x0)).err with
      | some e =>
        rw [considerBranch_of_err s lib mid dest b w x0 e ha herr]
        exact h
      | none =>
        rw [considerBranch_of_ok s lib mid dest b w x0 ha herr, hs]
        exact storeKeys_add _ _ _ _ _ h rfl

theorem storeKeys_enter (hs : s.timers = mapTimers) (spec : Spec) (f : Option State)
    (dest : State) (w : Sys Armed)
    (h : ∀ k ∈ storeKeys w.store, k = mid ++ "/" ++ dest.NodeName) :
    ∀ k ∈ storeKeys (enter s lib mid spec ⟨f, some dest⟩ w).2.store,
      k = mid ++ "/" ++ dest.NodeName := by
  unfold enter
  simp only
  split
  · exact h
  · split
    · exact h
    · split
      · exact h
      · exact storeKeys_considerBranches s lib mid hs dest _ w h

/-- The timers that are armed are at most the one of the node `cur`. -/
theorem storeKeys_considerStrides (hs : s.timers = mapTimers) (spec : Spec)
    (strides : List Stride) (cur : Option String) (w : Sys Armed)
    (hchain : linked cur strides = true)
    (h : ∀ k ∈ storeKeys w.store, ∃ c, cur = some c ∧ k = mid ++ "/" ++ c) :
    ∀ k ∈ storeKeys (considerStrides s lib mid spec strides w).2.store,
      ∃ c, lastEntered cur strides = some c ∧ k = mid ++ "/" ++ c := by
  induction strides generalizing cur w with
  | nil => exact h
  | cons x rest ih =>
    simp only [linked, Bool.and_eq_true, decide_eq_true_eq, Bool.or_eq_true,
      List.isEmpty_iff] at hchain
    obtain ⟨⟨hfrom, hlast⟩, hrest⟩ := hchain
    obtain ⟨f, t⟩ := x
    cases t with
    | none =>
      have hnil : rest = [] := by
        rcases hlast with hl | hl
        · exact hl
        · cases hl
      subst hnil
      simp only [considerStrides, considerStride_of_no_to, lastEntered, List.append_nil]
      exact h
    | some dest =>
      simp only [considerStrides, lastEntered]
      apply ih (some dest.NodeName) _ hrest
      intro k hk
      refine ⟨dest.NodeName, rfl, ?_⟩
      revert k
      cases f with
      | none =>
        rw [considerStride_of_no_from]
        apply storeKeys_enter s lib mid hs
        intro k hk
        obtain ⟨c, hc, _⟩ := h k hk
        simp only [nameOf, Option.map_none'] at hfrom
        rw [← hfrom] at hc
        cases hc
      | some fr =>
        rw [considerStride_of_both]
        apply storeKeys_enter s lib mid hs
        simp only [nameOf, Option.map_some'] at hfrom
        have hall : ∀ k ∈ storeKeys w.store, k = mid ++ "/" ++ fr.NodeName := by
          intro k hk
          obtain ⟨c, hc, hkc⟩ := h k hk
          rw [← hfrom] at hc
          cases hc
          exact hkc
        rw [hs, storeKeys_rem _ _ hall]
        intro k hk
        cases hk

end Keys

/-- The key of the `Rem` call of a stride is the timer key of the node that is left. -/
theorem leave_key {σ : Type} (s : Service σ) (mid : String) (f dest : State) (w : Sys σ) :
    (leave s mid ⟨some f, some dest⟩ w).1 = [.rem (timerKey mid f.NodeName)] := rfl

/-- The key of every `Add` call of a branch is the timer key of the node that is entered. -/
theorem armedCalls_key (lib : Lib) (mid : String) (dest : State) (bs : List Branch)
    (clk : Clock) :
    ∀ ev ∈ armedCalls lib mid dest bs clk, ∃ x d,
      ev = .add (timerKey mid dest.NodeName) (.cons "after" x .nil) d :=
  armedCalls_shape lib mid dest bs clk

/-! ## The claims -/

section Claims

variable {σ : Type}

/-- C1, the claim as it stands, fails in its last part: with the clock standing still, the
`float64` value 0.5 in `after` gives the delay zero, not half a second. -/
theorem half_second_gives_zero_delay :
    float64Value 0x3FE0000000000000 = some (1 / 2) ∧
      (considerWalked onService goLib "m" (specB [afterBranch (.float64 0x3FE0000000000000)])
          ⟨[strideAB .nil]⟩ sys0).1 =
        [.rem "m/A", .add "m/B" (.cons "after" (.float64 0x3FE0000000000000) .nil) 0] ∧
      ((0 : Int) : ℚ) ≠ 1 / 2 * (Second : ℚ) := by
  refine ⟨by norm_num [float64Value], by decide, by norm_num [Second]⟩

/-- C1, amended: with the flag on, for a step of the one stride from `A` to `B`, where the
node `B` has message branches of which exactly one has a map pattern with the field
`after`, whose value `n` is an `int`, an `int64` or a `float64`: the store calls of
`considerWalked` are `Rem(mid + "/" + A)` and then `Add(mid + "/" + B, after: n, d)`, where
`d` is `t.Sub` of the second clock reading for the time `t` that `InterpretTime(n)` returns
without error, the first clock reading plus `time.Duration(n) * time.Second`.  When the
clock does not advance between the two readings `d` is that product, as `int64`
arithmetic gives it with `n` converted to `int64` first: `n` seconds when `n` is an `int`
or `int64` and the product is in the `int64` range. -/
theorem considerWalked_single_timed_stride (s : Service σ) (lib : Lib) (mid : String)
    (spec : Spec) (f dest : State) (node : Node) (bs : Branches) (bpre bpost : List Branch)
    (b : Branch) (m : Fields) (n : Value) (w : Sys σ)
    (hon : s.ImplicitTimers = true)
    (hnode : spec.Nodes.lookup dest.NodeName = some node) (hbs : node.Branches = some bs)
    (htyp : bs.Typ = "message") (hsplit : bs.Branches = bpre ++ b :: bpost)
    (hothers : ∀ b' ∈ bpre ++ bpost, b'.after = none)
    (hpat : b.Pattern = .map m) (hafter : m.lookup "after" = some n)
    (hnum : n.isNumber = true) :
    let i := InterpretTime lib w.clock n
    let d := i.t.Sub (w.clock 1)
    (considerWalked s lib mid spec ⟨[⟨some f, some dest⟩]⟩ w).1.filter Event.isCall =
        [.rem (mid ++ "/" ++ f.NodeName),
          .add (mid ++ "/" ++ dest.NodeName) (.cons "after" n .nil) d] ∧
      i.err = none ∧
      i.t = (w.clock 0).Add (wrapInt64 (lib.durationOf n * Second)) ∧
      (w.clock 1 = w.clock 0 → d = wrapInt64 (lib.durationOf n * Second)) ∧
      (w.clock 1 = w.clock 0 → ∀ k : Int, n = .int k ∨ n = .int64 k →
        minDuration ≤ k * Second → k * Second ≤ maxDuration → d = k * Second) := by
  intro i d
  have hi : i = secondsFromNow w.clock (lib.durationOf n) :=
    InterpretTime_of_isNumber lib w.clock n hnum
  have hb : b.after = some n := after_of_pattern hpat hafter
  have hres : resolve lib dest.Bs n = n := resolve_of_isNumber lib dest.Bs n hnum
  have hstill : w.clock 1 = w.clock 0 → d = wrapInt64 (lib.durationOf n * Second) := by
    intro hclk
    simp only [d, hi, secondsFromNow, Clock.now, hclk]
    exact Sub_Add_self _ _ (wrapInt64_bounds _).1 (wrapInt64_bounds _).2
  refine ⟨?_, ?_, ?_, hstill, ?_⟩
  · have hsp := considerWalked_branch_split s lib mid spec [] [] ⟨some f, some dest⟩ dest
      node bs bpre bpost b w hon rfl hnode hbs htyp hsplit
    rw [List.nil_append] at hsp
    rw [hsp]
    have hpre : ∀ w1 : Sys σ, considerBranches s lib mid dest bpre w1 = ([], w1) :=
      fun w1 => considerBranches_of_after_none s lib mid dest bpre w1
        (fun b' hb' => hothers b' (List.mem_append_left _ hb'))
    have hpost : ∀ w1 : Sys σ, considerBranches s lib mid dest bpost w1 = ([], w1) :=
      fun w1 => considerBranches_of_after_none s lib mid dest bpost w1
        (fun b' hb' => hothers b' (List.mem_append_right _ hb'))
    have hw : considerWalked s lib mid spec ⟨[]⟩ w = ([], w) := by
      simp [considerWalked, considerStrides]
    have hw2 : ∀ w1 : Sys σ, considerWalked s lib mid spec ⟨[]⟩ w1 = ([], w1) := by
      intro w1
      simp [considerWalked, considerStrides]
    simp only [hw, hw2, hpre, hpost, leave]
    rw [considerBranch_of_ok s lib mid dest b _ n hb
      (by rw [hres, InterpretTime_of_isNumber lib _ n hnum]; rfl)]
    simp only [hres, List.nil_append, List.append_nil, List.singleton_append]
    have hd : (InterpretTime lib w.clock n).clock.now = w.clock 1 := by
      rw [InterpretTime_of_isNumber lib _ n hnum]
      rfl
    rw [hd]
    simp only [List.filter_cons, Event.isCall, if_true, d, i]
    congr 2
    split <;> simp [Event.isCall]
  · rw [hi]
    rfl
  · rw [hi]
    rfl
  · intro hclk k hk h1 h2
    rw [hstill hclk]
    have hdur : lib.durationOf n = k := by
      rcases hk with hk | hk <;> rw [hk] <;> rfl
    rw [hdur]
    exact wrapInt64_of_bounds _ h1 h2

theorem considerWalked_single_timed_stride_witness :
    (considerWalked onService goLib "m"
        (specB [⟨.map (.cons "kind" (.string "tick") .nil)⟩, afterBranch (.int 30)])
        ⟨[strideAB .nil]⟩ sys0).1.filter Event.isCall =
      [.rem "m/A", .add "m/B" (.cons "after" (.int 30) .nil) (30 * Second)] :=
  (considerWalked_single_timed_stride onService goLib "m"
      (specB [⟨.map (.cons "kind" (.string "tick") .nil)⟩, afterBranch (.int 30)])
      ⟨"A", .nil⟩ ⟨"B", .nil⟩ _ _ [⟨.map (.cons "kind" (.string "tick") .nil)⟩] []
      (afterBranch (.int 30)) _ (.int 30) sys0 rfl rfl rfl rfl rfl (by decide) rfl rfl rfl).1.trans
    (by decide)

/-- C2: when the flag `ImplicitTimers` is false, `considerWalked` issues no store call and
reports no error, for every instance id, specification and step: it causes no event and
leaves the surroundings as they were. -/
theorem considerWalked_disabled (s : Service σ) (lib : Lib) (mid : String) (spec : Spec)
    (walked : Walked) (w : Sys σ) (hoff : s.ImplicitTimers = false) :
    considerWalked s lib mid spec walked w = ([], w) := by
  simp [considerWalked, hoff]

theorem considerWalked_disabled_witness :
    offService.ImplicitTimers = false ∧
      considerWalked offService goLib "m" (specB [afterBranch (.int 30)])
        ⟨[strideAB .nil]⟩ sys0 = ([], sys0) :=
  ⟨rfl, considerWalked_disabled offService goLib "m" _ _ sys0 rfl⟩

/-- C3: with the flag on, a stride with both `From` and `To` present whose entered node is
missing from `spec.Nodes`, or has nil `Branches`, or has a `Type` other than "message", or
has no branch whose pattern is a map with the field `after`, contributes exactly one event
to the run of `considerWalked`: the call `Rem(mid + "/" + From.NodeName)`.  No `Add` call
and no error report come from it, and the strides after it run from the store as the `Rem`
call left it. -/
theorem considerWalked_untimed_entry (s : Service σ) (lib : Lib) (mid : String) (spec : Spec)
    (pre post : List Stride) (f dest : State) (w : Sys σ)
    (hon : s.ImplicitTimers = true)
    (h : spec.Nodes.lookup dest.NodeName = none ∨
      ∃ node, spec.Nodes.lookup dest.NodeName = some node ∧
        (node.Branches = none ∨
          ∃ bs, node.Branches = some bs ∧
            (bs.Typ ≠ "message" ∨ ∀ b ∈ bs.Branches, b.after = none))) :
    let r0 := considerWalked s lib mid spec ⟨pre⟩ w
    let left : Sys σ := ⟨(s.timers.Rem r0.2.store (mid ++ "/" ++ f.NodeName)).1, r0.2.clock⟩
    let r2 := considerWalked s lib mid spec ⟨post⟩ left
    considerWalked s lib mid spec ⟨pre ++ ⟨some f, some dest⟩ :: post⟩ w =
      (r0.1 ++ Event.rem (mid ++ "/" ++ f.NodeName) :: r2.1, r2.2) := by
  intro r0 left r2
  rw [considerWalked_split s lib mid spec pre post _ w hon]
  have hs : considerStride s lib mid spec ⟨some f, some dest⟩ r0.2 =
      ([Event.rem (mid ++ "/" ++ f.NodeName)], left) := by
    simp only [considerStride, leave]
    rw [enter_of_untimed s lib mid spec (some f) dest _ h]
    rfl
  rw [hs]
  rfl

theorem considerWalked_untimed_entry_witness :
    (considerWalked onService goLib "m" (specB [⟨.map (.cons "kind" (.string "tick") .nil)⟩])
        ⟨[strideAB .nil]⟩ ⟨[("m/A", .nil, 0)], stillClock⟩).1 = [.rem "m/A"] :=
  (congrArg Prod.fst
    (considerWalked_untimed_entry onService goLib "m"
      (specB [⟨.map (.cons "kind" (.string "tick") .nil)⟩]) [] [] ⟨"A", .nil⟩ ⟨"B", .nil⟩
      ⟨[("m/A", .nil, 0)], stillClock⟩ rfl
      (Or.inr ⟨⟨some ⟨"message", [⟨.map (.cons "kind" (.string "tick") .nil)⟩]⟩⟩, by decide,
        Or.inr ⟨_, rfl, Or.inr (by decide)⟩⟩))).trans (by decide)

/-- C4: with the flag on, whatever the specification holds, a stride of the step causes
a `Rem` call if and only if both its `From` and its `To` are present, and then exactly
one, with the key `mid + "/" + From.NodeName`.  The run of a step is the run of the
strides before, of the stride and of the strides after; the `Rem` calls of the stride are
the one call or none. -/
theorem considerWalked_rem_iff_both (s : Service σ) (lib : Lib) (mid : String) (spec : Spec)
    (pre post : List Stride) (stride : Stride) (w : Sys σ)
    (hon : s.ImplicitTimers = true) :
    let r0 := considerWalked s lib mid spec ⟨pre⟩ w
    let r1 := considerWalked s lib mid spec ⟨[stride]⟩ r0.2
    let r2 := considerWalked s lib mid spec ⟨post⟩ r1.2
    considerWalked s lib mid spec ⟨pre ++ stride :: post⟩ w = (r0.1 ++ r1.1 ++ r2.1, r2.2) ∧
      rems r1.1 =
        match stride.From, stride.To with
        | some f, some _ => [mid ++ "/" ++ f.NodeName]
        | _, _ => [] := by
  intro r0 r1 r2
  have h1 : r1 = considerStride s lib mid spec stride r0.2 :=
    considerWalked_single s lib mid spec stride r0.2 hon
  constructor
  · rw [considerWalked_split s lib mid spec pre post _ w hon]
    simp only [r2, h1, r0, List.append_assoc]
  · rw [h1]
    simp only [considerStride, rems_append, rems_enter, List.append_nil, leave]
    split <;> simp_all [rems]

theorem considerWalked_rem_iff_both_witness :
    rems (considerWalked onService goLib "m" (specB [afterBranch (.int 30)])
        ⟨[strideAB .nil]⟩ sys0).1 = ["m/A"] ∧
      rems (considerWalked onService goLib "m" (specB [afterBranch (.int 30)])
        ⟨[⟨none, some ⟨"B", .nil⟩⟩]⟩ sys0).1 = [] :=
  ⟨(considerWalked_rem_iff_both onService goLib "m" (specB [afterBranch (.int 30)]) [] []
      (strideAB .nil) sys0 rfl).2,
    (considerWalked_rem_iff_both onService goLib "m" (specB [afterBranch (.int 30)]) [] []
      ⟨none, some ⟨"B", .nil⟩⟩ sys0 rfl).2⟩

/-- C5, the claim as it stands, fails: the stride that leaves node `A` and enters no node
(`To` is nil) causes no `Rem` call for `A`. -/
theorem no_rem_without_entry :
    Event.rem "m/A" ∉
      (considerWalked onService goLib "m" (specB [afterBranch (.int 30)])
        ⟨[⟨some ⟨"A", .nil⟩, none⟩]⟩ ⟨[("m/A", .nil, 0)], stillClock⟩).1 := by
  decide

/-- C5, amended: with the flag on, every stride of the step whose `From` and `To` are both
present causes the call `Rem(mid + "/" + From.NodeName)`; a stride whose `To` is absent
causes nothing at all, the step runs as if that stride were not in it. -/
theorem considerWalked_rem_of_both (s : Service σ) (lib : Lib) (mid : String) (spec : Spec)
    (pre post : List Stride) (f dest : State) (from? : Option State) (w : Sys σ)
    (hon : s.ImplicitTimers = true) :
    Event.rem (mid ++ "/" ++ f.NodeName) ∈
        (considerWalked s lib mid spec ⟨pre ++ ⟨some f, some dest⟩ :: post⟩ w).1 ∧
      considerWalked s lib mid spec ⟨pre ++ ⟨from?, none⟩ :: post⟩ w =
        considerWalked s lib mid spec ⟨pre ++ post⟩ w := by
  constructor
  · rw [considerWalked_split s lib mid spec pre post _ w hon, considerStride_of_both]
    simp
  · rw [considerWalked_split s lib mid spec pre post _ w hon, considerStride_of_no_to,
      considerWalked_enabled s lib mid spec ⟨pre ++ post⟩ w hon, considerStrides_append,
      considerWalked_enabled s lib mid spec ⟨pre⟩ w hon,
      considerWalked_enabled s lib mid spec ⟨post⟩ _ hon]
    simp

theorem considerWalked_rem_of_both_witness :
    Event.rem "m/A" ∈
        (considerWalked onService goLib "m" (specB [afterBranch (.int 30)])
          ⟨[strideAB .nil]⟩ sys0).1 ∧
      considerWalked onService goLib "m" (specB [afterBranch (.int 30)])
          ⟨[⟨some ⟨"A", .nil⟩, none⟩]⟩ sys0 =
        considerWalked onService goLib "m" (specB [afterBranch (.int 30)]) ⟨[]⟩ sys0 :=
  considerWalked_rem_of_both onService goLib "m" (specB [afterBranch (.int 30)]) [] []
    ⟨"A", .nil⟩ ⟨"B", .nil⟩ (some ⟨"A", .nil⟩) sys0 rfl

/-- C6, the claim as it stands, fails: entering node `B`, whose message branches have the
patterns `after: 30` and `after: 60`, causes two `Add` calls, not at most one. -/
theorem two_adds_for_two_timed_branches :
    adds (considerWalked onService goLib "m"
        (specB [afterBranch (.int 30), afterBranch (.int 60)])
        ⟨[⟨none, some ⟨"B", .nil⟩⟩]⟩ sys0).1 =
      [("m/B", .cons "after" (.int 30) .nil), ("m/B", .cons "after" (.int 60) .nil)] ∧
    ¬ (adds (considerWalked onService goLib "m"
        (specB [afterBranch (.int 30), afterBranch (.int 60)])
        ⟨[⟨none, some ⟨"B", .nil⟩⟩]⟩ sys0).1).length ≤ 1 := by
  decide

/-- C6, amended: with the flag on, a stride that enters a node with message branches
causes one `Add` call for each branch whose pattern is a map with the field `after` and
whose resolved value `InterpretTime` accepts, in the order of the branches and all with
the key `mid + "/" + To.NodeName`, each with the payload that holds the resolved value.
So as many `Add` calls as there are such branches, not only one for the first.  The
resolved value is the one of `afterValue`: what the bindings `To.Bs` hold for a string
that is a variable (nil when they hold nothing), and the value itself otherwise. -/
theorem considerWalked_adds_every_timed_branch (s : Service σ) (lib : Lib) (mid : String)
    (spec : Spec) (pre post : List Stride) (stride : Stride) (dest : State) (node : Node)
    (bs : Branches) (w : Sys σ)
    (hon : s.ImplicitTimers = true) (hto : stride.To = some dest)
    (hnode : spec.Nodes.lookup dest.NodeName = some node) (hbs : node.Branches = some bs)
    (htyp : bs.Typ = "message") :
    let r0 := considerWalked s lib mid spec ⟨pre⟩ w
    let r1 := considerWalked s lib mid spec ⟨[stride]⟩ r0.2
    let r2 := considerWalked s lib mid spec ⟨post⟩ r1.2
    considerWalked s lib mid spec ⟨pre ++ stride :: post⟩ w = (r0.1 ++ r1.1 ++ r2.1, r2.2) ∧
      adds r1.1 =
        (armed lib dest.Bs bs.Branches).map
          (fun x => (mid ++ "/" ++ dest.NodeName, Fields.cons "after" x .nil)) ∧
      ∀ x0 : Value, resolve lib dest.Bs x0 = afterValue lib dest.Bs x0 := by
  intro r0 r1 r2
  have h1 : r1 = considerStride s lib mid spec stride r0.2 :=
    considerWalked_single s lib mid spec stride r0.2 hon
  refine ⟨?_, ?_, ?_⟩
  · rw [considerWalked_split s lib mid spec pre post _ w hon]
    simp only [r2, h1, r0, List.append_assoc]
  · rw [h1]
    have hleave : adds (leave s mid stride r0.2).1 = [] := by
      unfold leave
      split <;> rfl
    simp only [considerStride, adds_append, hleave, List.nil_append]
    simp only [enter, hto, hnode, hbs, htyp, ne_eq, not_true_eq_false, if_false]
    exact adds_considerBranches s lib mid dest bs.Branches _
  · intro x0
    cases x0 with
    | string v =>
      cases hv : lib.IsVariable v <;> cases hb : dest.Bs.lookup v <;>
        simp [resolve, afterValue, Fields.get, hv, hb]
    | _ => rfl

theorem considerWalked_adds_every_timed_branch_witness :
    adds (considerWalked onService goLib "m"
        (specB [afterBranch (.int 30), afterBranch (.bool true), afterBranch (.string "?d"),
          afterBranch (.string "?e"), afterBranch (.string "90s")])
        ⟨[strideAB (.cons "?d" (.string "45") .nil)]⟩ sys0).1 =
      [("m/B", .cons "after" (.int 30) .nil), ("m/B", .cons "after" (.string "45") .nil),
        ("m/B", .cons "after" (.string "90s") .nil)] ∧
    (armed goLib (.cons "?d" (.string "45") .nil)
        [afterBranch (.int 30), afterBranch (.bool true), afterBranch (.string "?d"),
          afterBranch (.string "?e"), afterBranch (.string "90s")]).map
        (fun x => ("m" ++ "/" ++ "B", Fields.cons "after" x .nil)) =
      [("m/B", .cons "after" (.int 30) .nil), ("m/B", .cons "after" (.string "45") .nil),
        ("m/B", .cons "after" (.string "90s") .nil)] :=
  ⟨by decide,
    ((considerWalked_adds_every_timed_branch onService goLib "m"
      (specB [afterBranch (.int 30), afterBranch (.bool true), afterBranch (.string "?d"),
        afterBranch (.string "?e"), afterBranch (.string "90s")])
      [] [] (strideAB (.cons "?d" (.string "45") .nil)) ⟨"B", .cons "?d" (.string "45") .nil⟩
      _ _ sys0 rfl rfl rfl rfl rfl).2.1).symm.trans (by decide)⟩

/-- C7: with the flag on, for a branch whose pattern holds `after: v` with `v` a string
that `core.IsVariable` accepts and that the bindings `To.Bs` of the entered stride map to
`y`, the value given to `InterpretTime` is `y`.  If `InterpretTime` fails its error is
reported and nothing else happens for the branch; if it succeeds, the `Add` call has the key
`mid + "/" + To.NodeName`, the payload `after: y` and the delay `t.Sub(time.Now())` for the
time `t` that `InterpretTime(y)` gave, and an error of `Add` is reported.  The whole step
is the events before the branch, these events, and the events after. -/
theorem considerWalked_bound_variable (s : Service σ) (lib : Lib) (mid : String)
    (spec : Spec) (pre post : List Stride) (stride : Stride) (dest : State) (node : Node)
    (bs : Branches) (bpre bpost : List Branch) (b : Branch) (m : Fields) (v : String)
    (y : Value) (w : Sys σ)
    (hon : s.ImplicitTimers = true) (hto : stride.To = some dest)
    (hnode : spec.Nodes.lookup dest.NodeName = some node) (hbs : node.Branches = some bs)
    (htyp : bs.Typ = "message") (hsplit : bs.Branches = bpre ++ b :: bpost)
    (hpat : b.Pattern = .map m) (hafter : m.lookup "after" = some (.string v))
    (hvar : lib.IsVariable v = true) (hbound : dest.Bs.lookup v = some y) :
    let r0 := considerWalked s lib mid spec ⟨pre⟩ w
    let r1 := leave s mid stride r0.2
    let r2 := considerBranches s lib mid dest bpre r1.2
    let i := InterpretTime lib r2.2.clock y
    let key := mid ++ "/" ++ dest.NodeName
    let payload := Fields.cons "after" y .nil
    let d := i.t.Sub i.clock.now
    let a := s.timers.Add r2.2.store key payload d
    let r3 : List Event × Sys σ :=
      match i.err with
      | some e => ([.err e], ⟨r2.2.store, i.clock⟩)
      | none =>
        (.add key payload d :: (match a.2 with | some e => [.err e] | none => []),
          ⟨a.1, i.clock.next⟩)
    let r4 := considerBranches s lib mid dest bpost r3.2
    let r5 := considerWalked s lib mid spec ⟨post⟩ r4.2
    considerWalked s lib mid spec ⟨pre ++ stride :: post⟩ w =
      (r0.1 ++ r1.1 ++ r2.1 ++ r3.1 ++ r4.1 ++ r5.1, r5.2) := by
  intro r0 r1 r2 i key payload d a r3 r4 r5
  have hb : b.after = some (.string v) := after_of_pattern hpat hafter
  have hres : resolve lib dest.Bs (.string v) = y := resolve_of_bound lib dest.Bs v y hvar hbound
  have h3 : considerBranch s lib mid dest b r2.2 = r3 := by
    cases herr : (InterpretTime lib r2.2.clock y).err with
    | some e =>
      rw [considerBranch_of_err s lib mid dest b r2.2 (.string v) e hb (by rw [hres]; exact herr)]
      simp only [r3, i, herr, hres]
    | none =>
      rw [considerBranch_of_ok s lib mid dest b r2.2 (.string v) hb (by rw [hres]; exact herr)]
      simp only [r3, i, a, d, key, payload, herr, hres]
  rw [considerWalked_branch_split s lib mid spec pre post stride dest node bs bpre bpost b w
    hon hto hnode hbs htyp hsplit]
  simp only [r5, r4, ← h3, r2, r1, r0]

theorem considerWalked_bound_variable_witness :
    (considerWalked onService goLib "m" (specB [afterBranch (.string "?d")])
        ⟨[strideAB (.cons "?d" (.string "45") .nil)]⟩ sys0).1 =
      [.rem "m/A", .add "m/B" (.cons "after" (.string "45") .nil) (45 * Second)] :=
  (congrArg Prod.fst
    (considerWalked_bound_variable onService goLib "m" (specB [afterBranch (.string "?d")])
      [] [] (strideAB (.cons "?d" (.string "45") .nil)) ⟨"B", .cons "?d" (.string "45") .nil⟩
      _ _ [] [] (afterBranch (.string "?d")) _ "?d" (.string "45") sys0
      rfl rfl rfl rfl rfl rfl rfl rfl rfl rfl)).trans (by decide)

/-- C8, the claim as it stands, fails: for the pattern `after: "?d"` with `?d` unbound, the
error reported is the one for the value nil, not what the string `"?d"` gives when it is
no variable, the error of `time.ParseDuration` for that string. -/
theorem unbound_variable_is_nil_not_string :
    (considerWalked onService goLib "m" (specB [afterBranch (.string "?d")])
        ⟨[strideAB .nil]⟩ sys0).1 ≠
      (considerWalked onService plainLib "m" (specB [afterBranch (.string "?d")])
        ⟨[strideAB .nil]⟩ sys0).1 ∧
    (considerWalked onService goLib "m" (specB [afterBranch (.string "?d")])
        ⟨[strideAB .nil]⟩ sys0).1 = [.rem "m/A", .err (.unsupportedAfter .nil)] ∧
    (considerWalked onService plainLib "m" (specB [afterBranch (.string "?d")])
        ⟨[strideAB .nil]⟩ sys0).1 = [.rem "m/A", .err (.duration (.invalid "?d"))] ∧
    (InterpretTime goLib stillClock (.string "?d")).err = some (.duration (.invalid "?d")) := by
  decide

/-- C8, amended: with the flag on, for a branch whose pattern holds `after: v` with `v` a
string that `core.IsVariable` accepts and that the bindings `To.Bs` do not bind, the value
given to `InterpretTime` is nil, the zero value of the failed lookup: the branch causes one
error report, of the error for the unsupported value nil, no `Add` call, and it leaves the
store and the clock untouched. -/
theorem considerWalked_unbound_variable (s : Service σ) (lib : Lib) (mid : String)
    (spec : Spec) (pre post : List Stride) (stride : Stride) (dest : State) (node : Node)
    (bs : Branches) (bpre bpost : List Branch) (b : Branch) (m : Fields) (v : String)
    (w : Sys σ)
    (hon : s.ImplicitTimers = true) (hto : stride.To = some dest)
    (hnode : spec.Nodes.lookup dest.NodeName = some node) (hbs : node.Branches = some bs)
    (htyp : bs.Typ = "message") (hsplit : bs.Branches = bpre ++ b :: bpost)
    (hpat : b.Pattern = .map m) (hafter : m.lookup "after" = some (.string v))
    (hvar : lib.IsVariable v = true) (hbound : dest.Bs.lookup v = none) :
    let r0 := considerWalked s lib mid spec ⟨pre⟩ w
    let r1 := leave s mid stride r0.2
    let r2 := considerBranches s lib mid dest bpre r1.2
    let r4 := considerBranches s lib mid dest bpost r2.2
    let r5 := considerWalked s lib mid spec ⟨post⟩ r4.2
    InterpretTime lib r2.2.clock (resolve lib dest.Bs (.string v)) =
        ⟨ZeroTime, some (.unsupportedAfter .nil), r2.2.clock⟩ ∧
      considerWalked s lib mid spec ⟨pre ++ stride :: post⟩ w =
        (r0.1 ++ r1.1 ++ r2.1 ++ [.err (.unsupportedAfter .nil)] ++ r4.1 ++ r5.1, r5.2) := by
  intro r0 r1 r2 r4 r5
  have hb : b.after = some (.string v) := after_of_pattern hpat hafter
  have hres : resolve lib dest.Bs (.string v) = .nil :=
    resolve_of_unbound lib dest.Bs v hvar hbound
  have hi : InterpretTime lib r2.2.clock (resolve lib dest.Bs (.string v)) =
      ⟨ZeroTime, some (.unsupportedAfter .nil), r2.2.clock⟩ := by
    rw [hres]
    rfl
  have h3 : considerBranch s lib mid dest b r2.2 = ([.err (.unsupportedAfter .nil)], r2.2) := by
    rw [considerBranch_of_err s lib mid dest b r2.2 (.string v) (.unsupportedAfter .nil) hb
      (by rw [hi]), hi]
  refine ⟨hi, ?_⟩
  rw [considerWalked_branch_split s lib mid spec pre post stride dest node bs bpre bpost b w
    hon hto hnode hbs htyp hsplit]
  simp only [r5, r4, h3, r2, r1, r0]

theorem considerWalked_unbound_variable_witness :
    (considerWalked onService goLib "m"
        (specB [afterBranch (.string "?d"), afterBranch (.int 30)])
        ⟨[strideAB .nil]⟩ sys0).1 =
      [.rem "m/A", .err (.unsupportedAfter .nil),
        .add "m/B" (.cons "after" (.int 30) .nil) (30 * Second)] :=
  (congrArg Prod.fst
    (considerWalked_unbound_variable onService goLib "m"
      (specB [afterBranch (.string "?d"), afterBranch (.int 30)])
      [] [] (strideAB .nil) ⟨"B", .nil⟩
      _ _ [] [afterBranch (.int 30)] (afterBranch (.string "?d")) _ "?d" sys0
      rfl rfl rfl rfl rfl rfl rfl rfl rfl rfl).2).trans (by decide)

/-- C9, the claim as it stands, fails: the `Rem` call for node `A`, for which no timer is
armed, returns an error, and `considerWalked` reports nothing. -/
theorem rem_error_not_reported :
    (onService.timers.Rem sys0.store "m/A").2 = some (.store "not found") ∧
      (considerWalked onService goLib "m" (specB []) ⟨[strideAB .nil]⟩ sys0).1 =
        [.rem "m/A"] ∧
      errs (considerWalked onService goLib "m" (specB []) ⟨[strideAB .nil]⟩ sys0).1 = [] := by
  decide

/-- C9, amended: with the flag on, the error that a `Rem` call returns is dropped, not
reported: the stride causes the `Rem` call and then exactly what entering its node causes,
from the store as the `Rem` call left it, and the remaining strides follow. -/
theorem considerWalked_rem_error_dropped (s : Service σ) (lib : Lib) (mid : String)
    (spec : Spec) (pre post : List Stride) (f dest : State) (w : Sys σ)
    (hon : s.ImplicitTimers = true) :
    let r0 := considerWalked s lib mid spec ⟨pre⟩ w
    let left : Sys σ := ⟨(s.timers.Rem r0.2.store (mid ++ "/" ++ f.NodeName)).1, r0.2.clock⟩
    let r1 := considerWalked s lib mid spec ⟨[⟨none, some dest⟩]⟩ left
    let r2 := considerWalked s lib mid spec ⟨post⟩ r1.2
    considerWalked s lib mid spec ⟨pre ++ ⟨some f, some dest⟩ :: post⟩ w =
      (r0.1 ++ Event.rem (mid ++ "/" ++ f.NodeName) :: r1.1 ++ r2.1, r2.2) := by
  intro r0 left r1 r2
  have h1 : r1 = enter s lib mid spec ⟨none, some dest⟩ left := by
    simp only [r1]
    rw [considerWalked_single s lib mid spec _ left hon, considerStride_of_no_from]
  rw [considerWalked_split s lib mid spec pre post _ w hon, considerStride_of_both]
  simp only [r2, h1, left, r0, List.cons_append, List.append_assoc]

theorem considerWalked_rem_error_dropped_witness :
    (considerWalked onService goLib "m" (specB [afterBranch (.int 30)])
        ⟨[strideAB .nil]⟩ sys0).1 =
      [.rem "m/A", .add "m/B" (.cons "after" (.int 30) .nil) (30 * Second)] :=
  (congrArg Prod.fst
    (considerWalked_rem_error_dropped onService goLib "m" (specB [afterBranch (.int 30)])
      [] [] ⟨"A", .nil⟩ ⟨"B", .nil⟩ sys0 rfl)).trans (by decide)

/-- C10: with the flag on, for a branch whose resolved `after` value makes `InterpretTime`
fail with the error `e`: the branch causes exactly one event, the report of `e`, so no `Add`
call, and it leaves the store and the clock as they were.  The branches after it and the
strides after it run from the surroundings that the loop over the branches without the
failing one leaves, and cause what they cause then. -/
theorem considerWalked_interpret_failure (s : Service σ) (lib : Lib) (mid : String)
    (spec : Spec) (pre post : List Stride) (stride : Stride) (dest : State) (node : Node)
    (bs : Branches) (bpre bpost : List Branch) (b : Branch) (x0 : Value) (e : GoError)
    (clk0 : Clock) (w : Sys σ)
    (hon : s.ImplicitTimers = true) (hto : stride.To = some dest)
    (hnode : spec.Nodes.lookup dest.NodeName = some node) (hbs : node.Branches = some bs)
    (htyp : bs.Typ = "message") (hsplit : bs.Branches = bpre ++ b :: bpost)
    (hafter : b.after = some x0)
    (hfail : (InterpretTime lib clk0 (resolve lib dest.Bs x0)).err = some e) :
    let r0 := considerWalked s lib mid spec ⟨pre⟩ w
    let r1 := leave s mid stride r0.2
    let r2 := considerBranches s lib mid dest bpre r1.2
    let r4 := considerBranches s lib mid dest bpost r2.2
    let r5 := considerWalked s lib mid spec ⟨post⟩ r4.2
    considerWalked s lib mid spec ⟨pre ++ stride :: post⟩ w =
        (r0.1 ++ r1.1 ++ r2.1 ++ [.err e] ++ r4.1 ++ r5.1, r5.2) ∧
      considerBranches s lib mid dest (bpre ++ bpost) r1.2 = (r2.1 ++ r4.1, r4.2) ∧
      ∀ spec' : Spec,
        spec'.Nodes.lookup dest.NodeName = some ⟨some ⟨"message", bpre ++ bpost⟩⟩ →
        considerWalked s lib mid spec' ⟨[stride]⟩ r0.2 = (r1.1 ++ r2.1 ++ r4.1, r4.2) := by
  intro r0 r1 r2 r4 r5
  have herr : (InterpretTime lib r2.2.clock (resolve lib dest.Bs x0)).err = some e := by
    rw [InterpretTime_err_clock lib _ clk0]
    exact hfail
  have h3 : considerBranch s lib mid dest b r2.2 = ([.err e], r2.2) := by
    rw [considerBranch_of_err s lib mid dest b r2.2 x0 e hafter herr,
      InterpretTime_clock_of_err lib _ _ e herr]
  refine ⟨?_, ?_, ?_⟩
  · rw [considerWalked_branch_split s lib mid spec pre post stride dest node bs bpre bpost b w
      hon hto hnode hbs htyp hsplit]
    simp only [r5, r4, h3, r2, r1, r0]
  · rw [considerBranches_append]
  · intro spec' hspec'
    rw [considerWalked_single s lib mid spec' stride r0.2 hon]
    simp only [considerStride, enter, hto, hspec', ne_eq, not_true_eq_false, if_false,
      considerBranches_append, List.append_assoc]

theorem considerWalked_interpret_failure_witness :
    (considerWalked onService goLib "m"
        (specB [afterBranch (.int 30), afterBranch (.bool true), afterBranch (.string "1h")])
        ⟨[strideAB .nil, ⟨some ⟨"B", .nil⟩, some ⟨"C", .nil⟩⟩]⟩ sys0).1 =
      [.rem "m/A", .add "m/B" (.cons "after" (.int 30) .nil) (30 * Second),
        .err (.unsupportedAfter (.bool true)),
        .add "m/B" (.cons "after" (.string "1h") .nil) (3600 * Second),
        .err (.store "exists"), .rem "m/B"] :=
  (congrArg Prod.fst
    (considerWalked_interpret_failure onService goLib "m"
      (specB [afterBranch (.int 30), afterBranch (.bool true), afterBranch (.string "1h")])
      [] [⟨some ⟨"B", .nil⟩, some ⟨"C", .nil⟩⟩] (strideAB .nil) ⟨"B", .nil⟩ _ _
      [afterBranch (.int 30)] [afterBranch (.string "1h")] (afterBranch (.bool true))
      (.bool true) (.unsupportedAfter (.bool true)) stillClock sys0
      rfl rfl rfl rfl rfl rfl rfl rfl).1).trans (by decide)

/-- C11: what the timer store returns has no part in what `considerWalked` asks of it.  For
every flag, instance id, specification, step and clock, and for any two timer stores, of
any behaviour and in any state, the store calls of the two runs are the same, call for
call: operation, key, payload and delay.  So a failed `Add` is not tried again; the two
runs leave the same clock, and they can differ only in the errors reported. -/
theorem considerWalked_calls_independent_of_store {σ₁ σ₂ : Type} (flag : Bool)
    (t₁ : Timers σ₁) (t₂ : Timers σ₂) (lib : Lib) (mid : String) (spec : Spec)
    (walked : Walked) (st₁ : σ₁) (st₂ : σ₂) (clk : Clock) :
    (considerWalked ⟨flag, t₁⟩ lib mid spec walked ⟨st₁, clk⟩).1.filter Event.isCall =
        (considerWalked ⟨flag, t₂⟩ lib mid spec walked ⟨st₂, clk⟩).1.filter Event.isCall ∧
      (considerWalked ⟨flag, t₁⟩ lib mid spec walked ⟨st₁, clk⟩).2.clock =
        (considerWalked ⟨flag, t₂⟩ lib mid spec walked ⟨st₂, clk⟩).2.clock := by
  cases flag with
  | false => exact ⟨rfl, rfl⟩
  | true =>
    rw [considerWalked_enabled _ lib mid spec walked _ rfl,
      considerWalked_enabled _ lib mid spec walked _ rfl]
    exact considerStrides_calls _ _ lib mid spec walked.Strides _ _ rfl

/-- C12, the claim as it stands, fails: the instance `a/b` in state `c` and the instance `a`
in state `b/c` have the same timer key. -/
theorem timerKey_collision :
    (("a/b", "c") : String × String) ≠ ("a", "b/c") ∧ timerKey "a/b" "c" = timerKey "a" "b/c" := by
  decide

/-- C12, amended: the timer keys of two different pairs of an instance id and a state name
differ when neither instance id contains the character `/`, and also when neither state
name contains it.  The `Rem` call of a stride and the `Add` calls of a branch use this
key. -/
theorem timerKey_injective (mid1 mid2 n1 n2 : String)
    (hslash : ('/' ∉ mid1.toList ∧ '/' ∉ mid2.toList) ∨ ('/' ∉ n1.toList ∧ '/' ∉ n2.toList))
    (hne : (mid1, n1) ≠ (mid2, n2)) : timerKey mid1 n1 ≠ timerKey mid2 n2 := by
  intro h
  apply hne
  have hd := congrArg String.data h
  rw [timerKey_data, timerKey_data] at hd
  have : mid1.data = mid2.data ∧ n1.data = n2.data := by
    rcases hslash with ⟨h1, h2⟩ | ⟨h1, h2⟩
    · exact split_at_first _ _ _ _ h1 h2 hd
    · exact split_at_last _ _ _ _ h1 h2 hd
  rw [Prod.mk.injEq]
  exact ⟨String.ext this.1, String.ext this.2⟩

theorem timerKey_injective_witness :
    timerKey "m1" "idle/wait" ≠ timerKey "m2" "idle/wait" ∧
      timerKey "m/1" "idle" ≠ timerKey "m/1" "wait" :=
  ⟨timerKey_injective "m1" "m2" "idle/wait" "idle/wait" (Or.inl (by decide)) (by decide),
    timerKey_injective "m/1" "m/1" "idle" "wait" (Or.inr (by decide)) (by decide)⟩

/-- C13: for one instance id the timer key is injective in the state name: equal keys
`mid + "/" + n1` and `mid + "/" + n2` have equal state names, so two different states of
one instance never share a key. -/
theorem timerKey_injective_in_name (mid n1 n2 : String)
    (h : timerKey mid n1 = timerKey mid n2) : n1 = n2 := by
  have hd := congrArg String.data h
  rw [timerKey_data, timerKey_data] at hd
  have := List.append_cancel_left hd
  simp only [List.cons.injEq, true_and] at this
  exact String.ext this

theorem timerKey_injective_in_name_witness :
    timerKey "m" "B" = timerKey "m" "B" ∧ "B" = "B" :=
  ⟨rfl, timerKey_injective_in_name "m" "B" "B" rfl⟩

/-- C14: for every whole number `n` given as an `int` or as an `int64`, `InterpretTime`
returns a nil error, reads the clock once, and returns the instant `r` nanoseconds after
the clock reading, where `r` is the product `time.Duration(n) * time.Second` as 64-bit
signed arithmetic gives it: the one `int64` that differs from `n * 10^9` by a multiple of
`2^64`.  So `r` is `n * 10^9` itself whenever that is an `int64`. -/
theorem InterpretTime_integer (lib : Lib) (clk : Clock) (n : Int) :
    ∃ r : Int,
      InterpretTime lib clk (.int n) =
          ⟨⟨(clk 0).unixNano + r⟩, none, fun i => clk (i + 1)⟩ ∧
        InterpretTime lib clk (.int64 n) =
          ⟨⟨(clk 0).unixNano + r⟩, none, fun i => clk (i + 1)⟩ ∧
        -(2 ^ 63 : Int) ≤ r ∧ r < 2 ^ 63 ∧ (2 ^ 64 : Int) ∣ r - n * 10 ^ 9 ∧
        (-(2 ^ 63 : Int) ≤ n * 10 ^ 9 → n * 10 ^ 9 < 2 ^ 63 → r = n * 10 ^ 9) := by
  refine ⟨wrapInt64 (n * Second), rfl, rfl, ?_, ?_, ?_, ?_⟩
  · have := (wrapInt64_bounds (n * Second)).1
    unfold minDuration at this
    exact this
  · have := (wrapInt64_bounds (n * Second)).2
    unfold maxDuration at this
    omega
  · have hs : n * Second = n * 10 ^ 9 := by simp [Second]
    rw [hs]
    generalize n * 10 ^ 9 = x
    unfold wrapInt64
    omega
  · intro h1 h2
    have hs : n * Second = n * 10 ^ 9 := by simp [Second]
    rw [hs]
    apply wrapInt64_of_bounds
    · unfold minDuration
      exact h1
    · unfold maxDuration
      omega

theorem InterpretTime_integer_witness :
    InterpretTime goLib stillClock (.int 30) =
        ⟨⟨1767225630000000000⟩, none, fun i => stillClock (i + 1)⟩ ∧
      InterpretTime goLib stillClock (.int64 9223372037) =
        ⟨⟨1767225600000000000 - 9223372036709551616⟩, none, fun i => stillClock (i + 1)⟩ := by
  obtain ⟨r, h1, _, _, _, _, hex⟩ := InterpretTime_integer goLib stillClock 30
  obtain ⟨r', _, h2, hlo, hhi, hdvd, _⟩ := InterpretTime_integer goLib stillClock 9223372037
  have hr : r = 30000000000 := by
    have := hex (by norm_num) (by norm_num)
    omega
  have hr' : r' = -9223372036709551616 := by omega
  have hnow : (stillClock 0).unixNano = 1767225600000000000 := by decide
  rw [hr, hnow] at h1
  rw [hr', hnow] at h2
  exact ⟨h1, h2⟩

/-- C15: for every string that `strconv.Atoi` parses to the whole number `k`,
`InterpretTime` returns for the string what it returns for `k` as an `int`, whatever the
two other parsers make of the string. -/
theorem InterpretTime_integer_string (lib : Lib) (clk : Clock) (str : String) (k : Int)
    (h : lib.Atoi str = some k) :
    InterpretTime lib clk (.string str) = InterpretTime lib clk (.int k) := by
  simp [InterpretTime, h]

theorem InterpretTime_integer_string_witness :
    goLib.Atoi "0" = some 0 ∧ (∃ d, goLib.ParseDuration "0" = .ok d) ∧
      InterpretTime goLib stillClock (.string "0") = InterpretTime goLib stillClock (.int 0) ∧
      InterpretTime goLib stillClock (.string "45") = InterpretTime goLib stillClock (.int 45) :=
  ⟨rfl, ⟨0, rfl⟩, InterpretTime_integer_string goLib stillClock "0" 0 rfl,
    InterpretTime_integer_string goLib stillClock "45" 45 rfl⟩

/-- C16: for every string that `strconv.Atoi` rejects: if `time.Parse` with the layout
`ClockTimeFormat` gives the instant `T`, `InterpretTime` returns `T` and a nil error, the
same for every clock, and reads no clock; otherwise, if `time.ParseDuration` gives the
duration `d`, it reads the clock once and returns the instant `d` nanoseconds after the
clock reading and a nil error.  So the duration counts only when the two other parsers
fail. -/
theorem InterpretTime_clock_or_duration (lib : Lib) (str : String)
    (hint : lib.Atoi str = none) :
    (∀ T, lib.Parse ClockTimeFormat str = some T →
        ∀ clk : Clock, InterpretTime lib clk (.string str) = ⟨T, none, clk⟩) ∧
      (∀ d, lib.Parse ClockTimeFormat str = none → lib.ParseDuration str = .ok d →
        ∀ clk : Clock, InterpretTime lib clk (.string str) =
          ⟨⟨(clk 0).unixNano + d⟩, none, fun i => clk (i + 1)⟩) := by
  constructor
  · intro T hT clk
    simp [InterpretTime, hint, hT]
  · intro d hT hd clk
    simp only [InterpretTime, hint, hT, hd]
    rfl

theorem InterpretTime_clock_or_duration_witness :
    (InterpretTime goLib stillClock (.string "2030-01-01 00:00:00Z")).t =
        ⟨1893456000000000000⟩ ∧
      (InterpretTime goLib (fun _ => ⟨0⟩) (.string "2030-01-01 00:00:00Z")).t =
        ⟨1893456000000000000⟩ ∧
      (InterpretTime goLib stillClock (.string "90s")).t = ⟨1767225690000000000⟩ ∧
      (InterpretTime goLib (fun _ => ⟨0⟩) (.string "90s")).t = ⟨90000000000⟩ :=
  ⟨congrArg Interpreted.t
      ((InterpretTime_clock_or_duration goLib "2030-01-01 00:00:00Z" rfl).1
        ⟨1893456000000000000⟩ (by decide) stillClock),
    congrArg Interpreted.t
      ((InterpretTime_clock_or_duration goLib "2030-01-01 00:00:00Z" rfl).1
        ⟨1893456000000000000⟩ (by decide) (fun _ => ⟨0⟩)),
    (congrArg Interpreted.t
      ((InterpretTime_clock_or_duration goLib "90s" rfl).2 90000000000 (by decide) (by rfl)
        stillClock)).trans (by decide),
    (congrArg Interpreted.t
      ((InterpretTime_clock_or_duration goLib "90s" rfl).2 90000000000 (by decide) (by rfl)
        (fun _ => ⟨0⟩))).trans (by decide)⟩

/-- C17: `InterpretTime` returns an error if and only if the value is no `int`, no `int64`,
no `float64` and no string that one of the three parsers accepts.  Whenever it returns an
error the time it returns is `ZeroTime` (and it has read no clock), and for a value that is
no number and no string the error is the one that `fmt.Errorf` makes of the value, with the
value and its type in its message. -/
theorem InterpretTime_error_iff (lib : Lib) (clk : Clock) (v : Value) :
    ((InterpretTime lib clk v).err ≠ none ↔
        ¬ (v.isNumber = true ∨
          ∃ str, v = .string str ∧
            (lib.Atoi str ≠ none ∨ lib.Parse ClockTimeFormat str ≠ none ∨
              ∃ d, lib.ParseDuration str = .ok d))) ∧
      ((InterpretTime lib clk v).err ≠ none →
        (InterpretTime lib clk v).t = ZeroTime ∧ (InterpretTime lib clk v).clock = clk) ∧
      (v.isNumber = false → (∀ str, v ≠ .string str) →
        (InterpretTime lib clk v).err = some (.unsupportedAfter v)) := by
  cases v with
  | string str =>
    cases ha : lib.Atoi str with
    | some k => simp [InterpretTime, ha, secondsFromNow, Value.isNumber]
    | none =>
      cases hp : lib.Parse ClockTimeFormat str with
      | some T => simp [InterpretTime, ha, hp, Value.isNumber]
      | none =>
        cases hd : lib.ParseDuration str with
        | ok d => simp [InterpretTime, ha, hp, hd, Value.isNumber]
        | error e => simp [InterpretTime, ha, hp, hd, Value.isNumber]
  | int n => simp [InterpretTime, secondsFromNow, Value.isNumber]
  | int64 n => simp [InterpretTime, secondsFromNow, Value.isNumber]
  | float64 bits => simp [InterpretTime, secondsFromNow, Value.isNumber]
  | nil => simp [InterpretTime, Value.isNumber]
  | bool b => simp [InterpretTime, Value.isNumber]
  | map m => simp [InterpretTime, Value.isNumber]
  | other typ repr => simp [InterpretTime, Value.isNumber]

/-- C18: with implicit timers on and the timer store a map from key to timer in which
`Add` inserts and `Rem` erases, for a step whose strides form a chain, started from a store
whose keys are at most the key of the node `F` that the first stride leaves (no key when
that stride leaves none): after `considerWalked` the keys of the store are at most the key
of the node entered last in the step, or of `F` when none was entered.  No timer of a node
that the instance has left remains armed. -/
theorem considerWalked_keeps_last_timer_only (s : Service Armed) (lib : Lib) (mid : String)
    (spec : Spec) (first : Stride) (rest : List Stride) (w : Sys Armed)
    (hon : s.ImplicitTimers = true) (hs : s.timers = mapTimers)
    (hchain : isChain (first :: rest) = true)
    (h : ∀ k ∈ storeKeys w.store, ∃ F, nameOf first.From = some F ∧ k = mid ++ "/" ++ F) :
    ∀ k ∈ storeKeys (considerWalked s lib mid spec ⟨first :: rest⟩ w).2.store,
      ∃ L, lastEntered (nameOf first.From) (first :: rest) = some L ∧
        k = mid ++ "/" ++ L := by
  rw [considerWalked_enabled s lib mid spec _ w hon]
  exact storeKeys_considerStrides s lib mid hs spec (first :: rest) (nameOf first.From) w
    hchain h

theorem considerWalked_keeps_last_timer_only_witness :
    storeKeys (considerWalked ⟨true, mapTimers⟩ goLib "m"
        ⟨[("B", ⟨some ⟨"message", [afterBranch (.int 30)]⟩⟩),
          ("C", ⟨some ⟨"message", [afterBranch (.int 60)]⟩⟩)]⟩
        ⟨[strideAB .nil, ⟨some ⟨"B", .nil⟩, some ⟨"C", .nil⟩⟩, ⟨some ⟨"C", .nil⟩, none⟩]⟩
        ⟨[("m/A", .nil, 0)], stillClock⟩).2.store = ["m/C"] ∧
      ∃ L, lastEntered (some "A")
          [strideAB .nil, ⟨some ⟨"B", .nil⟩, some ⟨"C", .nil⟩⟩, ⟨some ⟨"C", .nil⟩, none⟩] =
          some L ∧ "m/C" = "m" ++ "/" ++ L :=
  ⟨by decide,
    considerWalked_keeps_last_timer_only ⟨true, mapTimers⟩ goLib "m"
      ⟨[("B", ⟨some ⟨"message", [afterBranch (.int 30)]⟩⟩),
        ("C", ⟨some ⟨"message", [afterBranch (.int 60)]⟩⟩)]⟩ (strideAB .nil)
      [⟨some ⟨"B", .nil⟩, some ⟨"C", .nil⟩⟩, ⟨some ⟨"C", .nil⟩, none⟩]
      ⟨[("m/A", .nil, 0)], stillClock⟩ rfl rfl (by decide) (by decide) "m/C" (by decide)⟩

/-- C19: for every `float64` whose truncation toward zero `k` is in the `int64` range,
`InterpretTime` returns what it returns for `k` as an `int64`: the fraction is dropped
before the seconds are scaled.  So for a `float64` of absolute value below one, such as
0.5 or 0.9, the time returned is the clock reading itself. -/
theorem InterpretTime_float64 (lib : Lib) (clk : Clock) (bits : Nat) (q : ℚ)
    (hv : float64Value bits = some q)
    (hfit : minDuration ≤ truncToZero q ∧ truncToZero q ≤ maxDuration) :
    InterpretTime lib clk (.float64 bits) = InterpretTime lib clk (.int64 (truncToZero q)) ∧
      (|q| < 1 → (InterpretTime lib clk (.float64 bits)).t = clk.now) := by
  have htr := float64Trunc_eq bits q hv
  have hdur : lib.durationOfFloat64 bits = truncToZero q := by
    simp [Lib.durationOfFloat64, htr, hfit]
  have heq : InterpretTime lib clk (.float64 bits) =
      InterpretTime lib clk (.int64 (truncToZero q)) := by
    simp [InterpretTime, hdur]
  refine ⟨heq, ?_⟩
  intro habs
  have hz : truncToZero q = 0 := by
    rw [abs_lt] at habs
    unfold truncToZero
    split
    · rw [Int.floor_eq_zero_iff]
      exact ⟨by assumption, habs.2⟩
    · rw [Int.ceil_eq_zero_iff]
      constructor
      · simpa using habs.1
      · linarith
  rw [heq, hz]
  simp [InterpretTime, secondsFromNow, wrapInt64, Time.Add]

theorem InterpretTime_float64_witness :
    (InterpretTime goLib stillClock (.float64 0x3FE0000000000000)).t = stillClock.now ∧
      (InterpretTime goLib stillClock (.float64 0x3FECCCCCCCCCCCCD)).t = stillClock.now ∧
      InterpretTime goLib stillClock (.float64 0xC03E800000000000) =
        InterpretTime goLib stillClock (.int64 (-30)) := by
  have h1 : truncToZero (1 / 2) = 0 := by
    unfold truncToZero
    rw [if_pos (by norm_num), Int.floor_eq_iff]
    norm_num
  have h2 : truncToZero (8106479329266893 / 9007199254740992) = 0 := by
    unfold truncToZero
    rw [if_pos (by norm_num), Int.floor_eq_iff]
    norm_num
  have h3 : truncToZero (-61 / 2) = -30 := by
    unfold truncToZero
    rw [if_neg (by norm_num), Int.ceil_eq_iff]
    norm_num
  refine ⟨?_, ?_, ?_⟩
  · exact (InterpretTime_float64 goLib stillClock 0x3FE0000000000000 (1 / 2)
      (by norm_num [float64Value]) (by rw [h1]; decide)).2 (by rw [abs_lt]; norm_num)
  · exact (InterpretTime_float64 goLib stillClock 0x3FECCCCCCCCCCCCD
      (8106479329266893 / 9007199254740992)
      (by norm_num [float64Value]) (by rw [h2]; decide)).2 (by rw [abs_lt]; norm_num)
  · have h := (InterpretTime_float64 goLib stillClock 0xC03E800000000000 (-61 / 2)
      (by norm_num [float64Value]) (by rw [h3]; decide)).1
    rw [h3] at h
    exact h

/-- C20: with the flag on, for a stride that enters a node that the specification has and
whose branches are message branches: the `Add` calls of the stride are those of
`armedCalls`, one for each branch, in the order of the branches, whose pattern is a map
with the field `after` and whose resolved value `x` `InterpretTime` accepts, each with the
key `mid + "/" + To.NodeName`, the payload `after: x` and the delay `t.Sub(time.Now())` for
the time `t` that `InterpretTime(x)` gave (keys and payloads are those of `armed`).  The
resolved value is the one of `afterValue`: what the bindings `To.Bs` hold for a string
that is a variable (nil when they hold nothing), and the value itself otherwise.  There
are as many calls as such branches, all on the one key.  The delay is handed on as `Sub`
gives it: below zero when `t` is before the clock reading, zero when they are equal, and
the exact difference whenever that difference is an `int64`. -/
theorem considerWalked_add_calls (s : Service σ) (lib : Lib) (mid : String)
    (spec : Spec) (pre post : List Stride) (stride : Stride) (dest : State) (node : Node)
    (bs : Branches) (w : Sys σ)
    (hon : s.ImplicitTimers = true) (hto : stride.To = some dest)
    (hnode : spec.Nodes.lookup dest.NodeName = some node) (hbs : node.Branches = some bs)
    (htyp : bs.Typ = "message") :
    let r0 := considerWalked s lib mid spec ⟨pre⟩ w
    let r1 := considerWalked s lib mid spec ⟨[stride]⟩ r0.2
    let r2 := considerWalked s lib mid spec ⟨post⟩ r1.2
    considerWalked s lib mid spec ⟨pre ++ stride :: post⟩ w = (r0.1 ++ r1.1 ++ r2.1, r2.2) ∧
      r1.1.filter Event.isAdd = armedCalls lib mid dest bs.Branches r0.2.clock ∧
      adds r1.1 =
        (armed lib dest.Bs bs.Branches).map
          (fun x => (mid ++ "/" ++ dest.NodeName, Fields.cons "after" x .nil)) ∧
      (r1.1.filter Event.isAdd).length = (armed lib dest.Bs bs.Branches).length ∧
      (∀ ev ∈ r1.1.filter Event.isAdd, ∃ x d,
        ev = .add (mid ++ "/" ++ dest.NodeName) (.cons "after" x .nil) d) ∧
      (∀ x0 : Value, resolve lib dest.Bs x0 = afterValue lib dest.Bs x0) ∧
      ∀ t u : Time,
        (t.Sub u < 0 ↔ t.unixNano < u.unixNano) ∧ (t.Sub u = 0 ↔ t.unixNano = u.unixNano) ∧
          (minDuration ≤ t.unixNano - u.unixNano → t.unixNano - u.unixNano ≤ maxDuration →
            t.Sub u = t.unixNano - u.unixNano) := by
  intro r0 r1 r2
  have h1 : r1 = considerStride s lib mid spec stride r0.2 :=
    considerWalked_single s lib mid spec stride r0.2 hon
  have hadds : r1.1.filter Event.isAdd = armedCalls lib mid dest bs.Branches r0.2.clock := by
    rw [h1]
    have hleave : (leave s mid stride r0.2).1.filter Event.isAdd = [] ∧
        (leave s mid stride r0.2).2.clock = r0.2.clock := by
      unfold leave
      split <;> exact ⟨rfl, rfl⟩
    simp only [considerStride, List.filter_append, hleave.1, List.nil_append]
    simp only [enter, hto, hnode, hbs, htyp, ne_eq, not_true_eq_false, if_false]
    rw [isAdd_considerBranches, hleave.2]
  refine ⟨?_, hadds, ?_, ?_, ?_, ?_, ?_⟩
  · rw [considerWalked_split s lib mid spec pre post _ w hon]
    simp only [r2, h1, r0, List.append_assoc]
  · rw [h1]
    have hleave : adds (leave s mid stride r0.2).1 = [] := by
      unfold leave
      split <;> rfl
    simp only [considerStride, adds_append, hleave, List.nil_append]
    simp only [enter, hto, hnode, hbs, htyp, ne_eq, not_true_eq_false, if_false]
    exact adds_considerBranches s lib mid dest bs.Branches _
  · rw [hadds, armedCalls_length]
  · rw [hadds]
    exact armedCalls_shape lib mid dest bs.Branches _
  · intro x0
    cases x0 with
    | string v =>
      cases hv : lib.IsVariable v <;> cases hb : dest.Bs.lookup v <;>
        simp [resolve, afterValue, Fields.get, hv, hb]
    | _ => rfl
  · intro t u
    unfold Time.Sub minDuration maxDuration
    simp only
    refine ⟨?_, ?_, ?_⟩
    · split
      · constructor <;> intro <;> omega
      · split
        · constructor <;> intro <;> omega
        · constructor <;> intro <;> omega
    · split
      · constructor <;> intro <;> omega
      · split
        · constructor <;> intro <;> omega
        · constructor <;> intro <;> omega
    · intro h1 h2
      split
      · omega
      · split
        · omega
        · rfl

theorem considerWalked_add_calls_witness :
    (considerWalked onService goLib "m"
        (specB [afterBranch (.int (-5)), afterBranch (.bool true), afterBranch (.int 0),
          afterBranch (.string "?d"), afterBranch (.string "?e"),
          afterBranch (.string "2000-01-01 00:00:00Z")])
        ⟨[strideAB (.cons "?d" (.string "45") .nil)]⟩ sys0).1.filter Event.isAdd =
      [.add "m/B" (.cons "after" (.int (-5)) .nil) (-5000000000),
        .add "m/B" (.cons "after" (.int 0) .nil) 0,
        .add "m/B" (.cons "after" (.string "45") .nil) 45000000000,
        .add "m/B" (.cons "after" (.string "2000-01-01 00:00:00Z") .nil)
          (-820540800000000000)] ∧
    armedCalls goLib "m" ⟨"B", .cons "?d" (.string "45") .nil⟩
        [afterBranch (.int (-5)), afterBranch (.bool true), afterBranch (.int 0),
          afterBranch (.string "?d"), afterBranch (.string "?e"),
          afterBranch (.string "2000-01-01 00:00:00Z")] stillClock =
      [.add "m/B" (.cons "after" (.int (-5)) .nil) (-5000000000),
        .add "m/B" (.cons "after" (.int 0) .nil) 0,
        .add "m/B" (.cons "after" (.string "45") .nil) 45000000000,
        .add "m/B" (.cons "after" (.string "2000-01-01 00:00:00Z") .nil)
          (-820540800000000000)] :=
  ⟨by decide,
    ((considerWalked_add_calls onService goLib "m"
      (specB [afterBranch (.int (-5)), afterBranch (.bool true), afterBranch (.int 0),
        afterBranch (.string "?d"), afterBranch (.string "?e"),
        afterBranch (.string "2000-01-01 00:00:00Z")])
      [] [] (strideAB (.cons "?d" (.string "45") .nil)) ⟨"B", .cons "?d" (.string "45") .nil⟩
      _ _ sys0 rfl rfl rfl rfl rfl).2.1).symm.trans (by decide)⟩

end Claims

end Mcrew
